import Mathlib

/-!
# Verification of the Log-Analysis segment cache against its specification

Shallow embedding of the core logic of `src/log_ingestion/` (range algebra in
`cache_index.py`, the streaming segment writer and cache orchestration in
`service.py`, and the pagination / rate-limit handling in `api_client.py`),
together with theorems settling the specification claims.

Modelling conventions:
* Python `int` is embedded as `Int` (arbitrary precision in both).
* Python tuples `(s, e)` become `Int × Int`; half-open interval semantics
  `[s, e)` are spelled out in membership predicates.
* Functions that `raise` are embedded as `Except`-valued functions.
* Python's `sorted` (a stable sort) is embedded as insertion sort over the
  lexicographic order on pairs; on a total, transitive, antisymmetric order
  the sorted permutation of a list is unique, so any correct sort denotes
  the same function.
-/

namespace LogAnalysis

/-- Half-open interval `[start_ms, end_ms)` in epoch milliseconds
(`RangeMs = Tuple[int, int]` in `cache_index.py`). -/
abbrev RangeMs := Int × Int

/-- Lexicographic comparison on `(start, end)` pairs: the order Python's
`sorted` uses on 2-tuples of ints in `_normalize_ranges`. -/
def rangeLe (a b : RangeMs) : Prop :=
  a.1 < b.1 ∨ (a.1 = b.1 ∧ a.2 ≤ b.2)

instance : DecidableRel rangeLe := fun a b => by
  unfold rangeLe; exact inferInstance

instance : IsTotal RangeMs rangeLe where
  total a b := by unfold rangeLe; omega

instance : IsTrans RangeMs rangeLe where
  trans a b c := by unfold rangeLe; omega

instance : IsAntisymm RangeMs rangeLe where
  antisymm a b := by
    unfold rangeLe
    intro h1 h2
    have : a.1 = b.1 ∧ a.2 = b.2 := by omega
    exact Prod.ext this.1 this.2

/-- `sorted((int(s), int(e)) for s, e in ranges)` in `_normalize_ranges`
(`cache_index.py` line 24). -/
def sortRanges (l : List RangeMs) : List RangeMs :=
  List.insertionSort rangeLe l

/-- The merge loop of `_normalize_ranges` (`cache_index.py` lines 26-36) once
`merged` is non-empty: `cur` is the last element of `merged` (the only one the
loop can still mutate); entries before it are final and emitted in order. -/
def mergeGo (cur : RangeMs) : List RangeMs → List RangeMs
  | [] => [cur]
  | (s, e) :: rest =>
    if e ≤ s then mergeGo cur rest
    else if s ≤ cur.2 then mergeGo (cur.1, max cur.2 e) rest
    else cur :: mergeGo (s, e) rest

/-- The merge loop of `_normalize_ranges` while `merged` is still empty:
skip invalid ranges (`e <= s`) until the first valid one is pushed. -/
def normStart : List RangeMs → List RangeMs
  | [] => []
  | (s, e) :: rest => if e ≤ s then normStart rest else mergeGo (s, e) rest

/-- `_normalize_ranges` (`cache_index.py` lines 22-37): sort, drop invalid
ranges, merge overlapping or adjacent ranges. -/
def _normalize_ranges (ranges : List RangeMs) : List RangeMs :=
  normStart (sortRanges ranges)

/-- The walk of `compute_missing_subranges` (`cache_index.py` lines 66-81)
over the normalized cached ranges, including the post-loop trailing-gap
emission (which also runs after a `break`). -/
def missingGo (reqS reqE : Int) : Int → List RangeMs → List RangeMs
  | cursor, [] => if cursor < reqE then [(cursor, reqE)] else []
  | cursor, (s, e) :: rest =>
    if e ≤ reqS then missingGo reqS reqE cursor rest
    else if s ≥ reqE then (if cursor < reqE then [(cursor, reqE)] else [])
    else
      let s2 := max s reqS
      let e2 := min e reqE
      let gaps := if s2 > cursor then [(cursor, s2)] else []
      let cursor2 := max cursor e2
      if cursor2 ≥ reqE then gaps
      else gaps ++ missingGo reqS reqE cursor2 rest

/-- `compute_missing_subranges` (`cache_index.py` lines 40-83).  Raising
`ValueError` is embedded as `Except.error` with the source's message. -/
def compute_missing_subranges (requested_start_ms requested_end_ms : Int)
    (cached_ranges_ms : List RangeMs) : Except String (List RangeMs) :=
  if requested_end_ms ≤ requested_start_ms then
    Except.error "requested_end_ms must be greater than requested_start_ms"
  else
    Except.ok (missingGo requested_start_ms requested_end_ms requested_start_ms
      (_normalize_ranges cached_ranges_ms))

/-- A point `x` lies in the union of the half-open intervals of `l`. -/
def coveredBy (l : List RangeMs) (x : Int) : Prop :=
  ∃ p ∈ l, p.1 ≤ x ∧ x < p.2

instance (l : List RangeMs) (x : Int) : Decidable (coveredBy l x) := by
  unfold coveredBy; exact inferInstance

example : _normalize_ranges [(5, 7), (0, 3), (3, 4), (9, 8)] = [(0, 4), (5, 7)] := by decide

example : compute_missing_subranges 0 10 [(2, 4), (6, 8)] =
    Except.ok [(0, 2), (4, 6), (8, 10)] := rfl

example : compute_missing_subranges 1000 5000 [(0, 10000)] = Except.ok [] := rfl

example : compute_missing_subranges 0 20 [(0, 10), (10, 20)] = Except.ok [] := rfl

/-- Membership in the union of a cons list of ranges. -/
theorem coveredBy_cons {p : RangeMs} {l : List RangeMs} {x : Int} :
    coveredBy (p :: l) x ↔ (p.1 ≤ x ∧ x < p.2) ∨ coveredBy l x := by
  simp [coveredBy, List.exists_mem_cons_iff]

theorem coveredBy_nil {x : Int} : ¬ coveredBy ([] : List RangeMs) x := by
  simp [coveredBy]

theorem coveredBy_perm {l1 l2 : List RangeMs} (h : l1.Perm l2) (x : Int) :
    coveredBy l1 x ↔ coveredBy l2 x := by
  unfold coveredBy
  constructor
  · rintro ⟨p, hp, hx⟩; exact ⟨p, h.mem_iff.mp hp, hx⟩
  · rintro ⟨p, hp, hx⟩; exact ⟨p, h.mem_iff.mpr hp, hx⟩

/-- Start components are monotone between two ranges. -/
def startMono (a b : RangeMs) : Prop := a.1 ≤ b.1

/-- Two ranges separated by a strict gap (not even adjacent). -/
def gapRel (a b : RangeMs) : Prop := a.2 < b.1

/-- The merge loop preserves coverage: a point is covered by the output of
`mergeGo` iff it is covered by the pending range `cur` or by the remaining
input. -/
theorem mergeGo_mem (x : Int) (rest : List RangeMs) :
    ∀ cur : RangeMs, cur.1 < cur.2 →
    (∀ q ∈ rest, cur.1 ≤ q.1) →
    List.Pairwise startMono rest →
    (coveredBy (mergeGo cur rest) x ↔ (cur.1 ≤ x ∧ x < cur.2) ∨ coveredBy rest x) := by
  induction rest with
  | nil =>
    intro cur hv _ _
    simp [mergeGo, coveredBy]
  | cons hd tl ih =>
    obtain ⟨s, e⟩ := hd
    intro cur hv hlb hpw
    have hlb_s : cur.1 ≤ s := hlb (s, e) (List.mem_cons_self _ _)
    have hpw_tl : List.Pairwise startMono tl := hpw.of_cons
    have hs_tl : ∀ q ∈ tl, s ≤ q.1 := fun q hq => (List.pairwise_cons.mp hpw).1 q hq
    by_cases he : e ≤ s
    · rw [show mergeGo cur ((s, e) :: tl) = mergeGo cur tl by simp [mergeGo, he]]
      rw [ih cur hv (fun q hq => hlb q (List.mem_cons_of_mem _ hq)) hpw_tl, coveredBy_cons]
      constructor
      · rintro (h | h)
        · exact Or.inl h
        · exact Or.inr (Or.inr h)
      · rintro (h | h | h)
        · exact Or.inl h
        · exact absurd h (by simp only [not_and, not_lt]; omega)
        · exact Or.inr h
    · by_cases hm : s ≤ cur.2
      · rw [show mergeGo cur ((s, e) :: tl) = mergeGo (cur.1, max cur.2 e) tl by
          simp [mergeGo, he, hm]]
        rw [ih (cur.1, max cur.2 e) (by simp only; omega)
          (fun q hq => hlb q (List.mem_cons_of_mem _ hq)) hpw_tl, coveredBy_cons]
        constructor
        · rintro (⟨h1, h2⟩ | h)
          · simp only at h1 h2
            by_cases hx : x < cur.2
            · exact Or.inl ⟨h1, hx⟩
            · exact Or.inr (Or.inl ⟨by omega, by omega⟩)
          · exact Or.inr (Or.inr h)
        · rintro (⟨h1, h2⟩ | ⟨h1, h2⟩ | h)
          · exact Or.inl ⟨h1, by simp only; omega⟩
          · exact Or.inl ⟨by omega, by simp only; omega⟩
          · exact Or.inr h
      · rw [show mergeGo cur ((s, e) :: tl) = cur :: mergeGo (s, e) tl by
          simp [mergeGo, he, hm]]
        rw [coveredBy_cons, ih (s, e) (by simp only; omega) hs_tl hpw_tl, coveredBy_cons]

/-- `normStart` preserves coverage. -/
theorem normStart_mem (x : Int) (l : List RangeMs) (hpw : List.Pairwise startMono l) :
    coveredBy (normStart l) x ↔ coveredBy l x := by
  induction l with
  | nil => simp [normStart]
  | cons hd tl ih =>
    obtain ⟨s, e⟩ := hd
    by_cases he : e ≤ s
    · rw [show normStart ((s, e) :: tl) = normStart tl by simp [normStart, he]]
      rw [ih hpw.of_cons, coveredBy_cons]
      constructor
      · exact Or.inr
      · rintro (h | h)
        · exact absurd h (by simp only [not_and, not_lt]; omega)
        · exact h
    · rw [show normStart ((s, e) :: tl) = mergeGo (s, e) tl by simp [normStart, he]]
      rw [mergeGo_mem x tl (s, e) (by simp only; omega)
        (fun q hq => (List.pairwise_cons.mp hpw).1 q hq) hpw.of_cons, coveredBy_cons]

/-- `sortRanges` output is sorted for the lexicographic order. -/
theorem sortRanges_sorted (l : List RangeMs) : List.Sorted rangeLe (sortRanges l) :=
  List.sorted_insertionSort rangeLe l

/-- `sortRanges` is a permutation of its input. -/
theorem sortRanges_perm (l : List RangeMs) : (sortRanges l).Perm l :=
  List.perm_insertionSort rangeLe l

/-- `_normalize_ranges` preserves coverage (half of claim C10). -/
theorem normalize_mem (x : Int) (l : List RangeMs) :
    coveredBy (_normalize_ranges l) x ↔ coveredBy l x := by
  unfold _normalize_ranges
  have hpw : List.Pairwise startMono (sortRanges l) :=
    (sortRanges_sorted l).imp (fun {a b} h => by
      unfold rangeLe at h; unfold startMono; omega)
  rw [normStart_mem x _ hpw, coveredBy_perm (sortRanges_perm l) x]

/-- Every element of `mergeGo cur rest` starts at or after `cur.1`. -/
theorem mergeGo_start_lb (rest : List RangeMs) :
    ∀ cur : RangeMs, (∀ q ∈ rest, cur.1 ≤ q.1) →
    List.Pairwise startMono rest →
    ∀ p ∈ mergeGo cur rest, cur.1 ≤ p.1 := by
  induction rest with
  | nil =>
    intro cur _ _ p hp
    simp only [mergeGo, List.mem_singleton] at hp
    subst hp; exact le_refl _
  | cons hd tl ih =>
    obtain ⟨s, e⟩ := hd
    intro cur hlb hpw p hp
    have hlb_s : cur.1 ≤ s := hlb (s, e) (List.mem_cons_self _ _)
    have hs_tl : ∀ q ∈ tl, s ≤ q.1 := fun q hq => (List.pairwise_cons.mp hpw).1 q hq
    by_cases he : e ≤ s
    · rw [show mergeGo cur ((s, e) :: tl) = mergeGo cur tl by simp [mergeGo, he]] at hp
      exact ih cur (fun q hq => hlb q (List.mem_cons_of_mem _ hq)) hpw.of_cons p hp
    · by_cases hm : s ≤ cur.2
      · rw [show mergeGo cur ((s, e) :: tl) = mergeGo (cur.1, max cur.2 e) tl by
          simp [mergeGo, he, hm]] at hp
        exact ih (cur.1, max cur.2 e)
          (fun q hq => hlb q (List.mem_cons_of_mem _ hq)) hpw.of_cons p hp
      · rw [show mergeGo cur ((s, e) :: tl) = cur :: mergeGo (s, e) tl by
          simp [mergeGo, he, hm]] at hp
        rcases List.mem_cons.mp hp with h | h
        · subst h; exact le_refl _
        · exact le_trans hlb_s (ih (s, e) hs_tl hpw.of_cons p h)

/-- The merged output is a list of valid ranges, pairwise separated by strict
gaps (hence sorted, pairwise disjoint and non-adjacent). -/
theorem mergeGo_chain (rest : List RangeMs) :
    ∀ cur : RangeMs, cur.1 < cur.2 →
    (∀ q ∈ rest, cur.1 ≤ q.1) →
    List.Pairwise startMono rest →
    (∀ p ∈ mergeGo cur rest, p.1 < p.2) ∧
      List.Pairwise gapRel (mergeGo cur rest) := by
  induction rest with
  | nil =>
    intro cur hv _ _
    constructor
    · intro p hp
      simp only [mergeGo, List.mem_singleton] at hp
      subst hp; exact hv
    · simp [mergeGo]
  | cons hd tl ih =>
    obtain ⟨s, e⟩ := hd
    intro cur hv hlb hpw
    have hlb_s : cur.1 ≤ s := hlb (s, e) (List.mem_cons_self _ _)
    have hs_tl : ∀ q ∈ tl, s ≤ q.1 := fun q hq => (List.pairwise_cons.mp hpw).1 q hq
    by_cases he : e ≤ s
    · rw [show mergeGo cur ((s, e) :: tl) = mergeGo cur tl by simp [mergeGo, he]]
      exact ih cur hv (fun q hq => hlb q (List.mem_cons_of_mem _ hq)) hpw.of_cons
    · by_cases hm : s ≤ cur.2
      · rw [show mergeGo cur ((s, e) :: tl) = mergeGo (cur.1, max cur.2 e) tl by
          simp [mergeGo, he, hm]]
        exact ih (cur.1, max cur.2 e) (by simp only; omega)
          (fun q hq => hlb q (List.mem_cons_of_mem _ hq)) hpw.of_cons
      · rw [show mergeGo cur ((s, e) :: tl) = cur :: mergeGo (s, e) tl by
          simp [mergeGo, he, hm]]
        obtain ⟨ihv, ihpw⟩ := ih (s, e) (by simp only; omega) hs_tl hpw.of_cons
        constructor
        · intro p hp
          rcases List.mem_cons.mp hp with h | h
          · subst h; exact hv
          · exact ihv p h
        · rw [List.pairwise_cons]
          refine ⟨fun p hp => ?_, ihpw⟩
          have := mergeGo_start_lb tl (s, e) hs_tl hpw.of_cons p hp
          unfold gapRel
          simp only at this
          omega

/-- `normStart` of a sorted list yields valid ranges pairwise separated by
strict gaps. -/
theorem normStart_chain (l : List RangeMs) (hpw : List.Pairwise startMono l) :
    (∀ p ∈ normStart l, p.1 < p.2) ∧ List.Pairwise gapRel (normStart l) := by
  induction l with
  | nil => simp [normStart]
  | cons hd tl ih =>
    obtain ⟨s, e⟩ := hd
    by_cases he : e ≤ s
    · rw [show normStart ((s, e) :: tl) = normStart tl by simp [normStart, he]]
      exact ih hpw.of_cons
    · rw [show normStart ((s, e) :: tl) = mergeGo (s, e) tl by simp [normStart, he]]
      exact mergeGo_chain tl (s, e) (by simp only; omega)
        (fun q hq => (List.pairwise_cons.mp hpw).1 q hq) hpw.of_cons

/-- `_normalize_ranges` returns valid ranges, pairwise separated by strict
gaps. -/
theorem normalize_chain (l : List RangeMs) :
    (∀ p ∈ _normalize_ranges l, p.1 < p.2) ∧
      List.Pairwise gapRel (_normalize_ranges l) := by
  unfold _normalize_ranges
  exact normStart_chain _ ((sortRanges_sorted l).imp (fun {a b} h => by
    unfold rangeLe at h; unfold startMono; omega))

/-- On a list whose ranges are valid and separated by strict gaps, `mergeGo`
keeps everything unchanged. -/
theorem mergeGo_eq_self (rest : List RangeMs) :
    ∀ cur : RangeMs, (∀ p ∈ rest, p.1 < p.2) →
    List.Chain' gapRel (cur :: rest) →
    mergeGo cur rest = cur :: rest := by
  induction rest with
  | nil => intro cur _ _; simp [mergeGo]
  | cons hd tl ih =>
    obtain ⟨s, e⟩ := hd
    intro cur hv hch
    have hgap : cur.2 < s := (List.chain'_cons.mp hch).1
    have hse : s < e := hv (s, e) (List.mem_cons_self _ _)
    rw [show mergeGo cur ((s, e) :: tl) = cur :: mergeGo (s, e) tl by
      simp only [mergeGo]
      rw [if_neg (by omega), if_neg (by omega)]]
    rw [ih (s, e) (fun p hp => hv p (List.mem_cons_of_mem _ hp)) (List.chain'_cons.mp hch).2]

/-- `normStart` keeps a valid gap-separated list unchanged. -/
theorem normStart_eq_self (l : List RangeMs) (hv : ∀ p ∈ l, p.1 < p.2)
    (hch : List.Chain' gapRel l) : normStart l = l := by
  cases l with
  | nil => rfl
  | cons hd tl =>
    obtain ⟨s, e⟩ := hd
    have hse : s < e := hv (s, e) (List.mem_cons_self _ _)
    rw [show normStart ((s, e) :: tl) = mergeGo (s, e) tl by
      simp only [normStart]; rw [if_neg (by omega)]]
    exact mergeGo_eq_self tl (s, e) (fun p hp => hv p (List.mem_cons_of_mem _ hp)) hch

/-- The normalized output is sorted for the lexicographic order. -/
theorem normalize_sorted (l : List RangeMs) :
    List.Sorted rangeLe (_normalize_ranges l) := by
  obtain ⟨hv, hpw⟩ := normalize_chain l
  exact hpw.imp_of_mem (fun {a b} ha hb h => by
    have hva := hv a ha
    unfold gapRel at h
    unfold rangeLe
    omega)

/-- `_normalize_ranges` is idempotent (half of claim C10). -/
theorem normalize_idem (l : List RangeMs) :
    _normalize_ranges (_normalize_ranges l) = _normalize_ranges l := by
  obtain ⟨hv, hpw⟩ := normalize_chain l
  have hsorted : List.Sorted rangeLe (_normalize_ranges l) := normalize_sorted l
  have hsort_self : sortRanges (_normalize_ranges l) = _normalize_ranges l :=
    List.eq_of_perm_of_sorted (sortRanges_perm _) (sortRanges_sorted _) hsorted
  show normStart (sortRanges (_normalize_ranges l)) = _normalize_ranges l
  rw [hsort_self]
  exact normStart_eq_self _ hv hpw.chain'

/-- Coverage semantics of the gap walk `missingGo`: a point is covered by the
emitted gaps iff it lies in `[cursor, reqE)` and is not covered by the
remaining (normalized) cached ranges. -/
theorem missingGo_mem (reqS reqE x : Int) (L : List RangeMs) :
    ∀ cursor : Int, (∀ p ∈ L, p.1 < p.2) → List.Pairwise gapRel L →
    reqS ≤ cursor → cursor < reqE →
    (coveredBy (missingGo reqS reqE cursor L) x ↔
      (cursor ≤ x ∧ x < reqE ∧ ¬ coveredBy L x)) := by
  induction L with
  | nil =>
    intro cursor _ _ _ hlt
    rw [show missingGo reqS reqE cursor [] = [(cursor, reqE)] by
      simp only [missingGo]; rw [if_pos hlt]]
    rw [coveredBy_cons]
    simp [coveredBy]
  | cons hd tl ih =>
    obtain ⟨s, e⟩ := hd
    intro cursor hv hpw hge hlt
    have hse : s < e := hv (s, e) (List.mem_cons_self _ _)
    have htl_gap : ∀ p ∈ tl, e < p.1 := fun p hp => (List.pairwise_cons.mp hpw).1 p hp
    have hv_tl : ∀ p ∈ tl, p.1 < p.2 := fun p hp => hv p (List.mem_cons_of_mem _ hp)
    have hpw_tl : List.Pairwise gapRel tl := hpw.of_cons
    by_cases h1 : e ≤ reqS
    · rw [show missingGo reqS reqE cursor ((s, e) :: tl) = missingGo reqS reqE cursor tl by
        simp only [missingGo]; rw [if_pos h1]]
      rw [ih cursor hv_tl hpw_tl hge hlt, coveredBy_cons]
      constructor
      · rintro ⟨ha, hb, hc⟩
        refine ⟨ha, hb, ?_⟩
        rintro (h | h)
        · simp only at h; omega
        · exact hc h
      · rintro ⟨ha, hb, hc⟩
        exact ⟨ha, hb, fun h => hc (Or.inr h)⟩
    · by_cases h2 : s ≥ reqE
      · rw [show missingGo reqS reqE cursor ((s, e) :: tl) = [(cursor, reqE)] by
          simp only [missingGo]; rw [if_neg h1, if_pos h2, if_pos hlt]]
        rw [coveredBy_cons]
        constructor
        · rintro (⟨ha, hb⟩ | h)
          · refine ⟨ha, hb, ?_⟩
            rw [coveredBy_cons]
            rintro (h | h)
            · omega
            · obtain ⟨p, hp, hpx⟩ := h
              have := htl_gap p hp
              omega
          · exact absurd h coveredBy_nil
        · rintro ⟨ha, hb, _⟩
          exact Or.inl ⟨ha, hb⟩
      · -- main branch: the cached range overlaps the window
        have hs_lt : s < reqE := by omega
        have he_gt : reqS < e := by omega
        by_cases h3 : max cursor (min e reqE) ≥ reqE
        · have he2 : min e reqE = reqE := by omega
          have hee : reqE ≤ e := by omega
          rw [show missingGo reqS reqE cursor ((s, e) :: tl) =
              (if max s reqS > cursor then [(cursor, max s reqS)] else []) by
            simp only [missingGo]
            rw [if_neg h1, if_neg h2, if_pos h3]]
          by_cases h4 : max s reqS > cursor
          · rw [if_pos h4, coveredBy_cons]
            constructor
            · rintro (⟨ha, hb⟩ | h)
              · simp only at ha hb
                refine ⟨ha, by omega, ?_⟩
                rw [coveredBy_cons]
                rintro (h | h)
                · omega
                · obtain ⟨p, hp, hpx⟩ := h
                  have := htl_gap p hp
                  omega
              · exact absurd h coveredBy_nil
            · rintro ⟨ha, hb, hc⟩
              rw [coveredBy_cons] at hc
              push_neg at hc
              obtain ⟨hc1, _⟩ := hc
              exact Or.inl ⟨ha, by omega⟩
          · rw [if_neg h4]
            constructor
            · intro h; exact absurd h coveredBy_nil
            · rintro ⟨ha, hb, hc⟩
              rw [coveredBy_cons] at hc
              push_neg at hc
              obtain ⟨hc1, _⟩ := hc
              omega
        · have hcur2 : max cursor (min e reqE) < reqE := by omega
          have he2 : min e reqE = e := by omega
          rw [show missingGo reqS reqE cursor ((s, e) :: tl) =
              (if max s reqS > cursor then [(cursor, max s reqS)] else []) ++
                missingGo reqS reqE (max cursor (min e reqE)) tl by
            simp only [missingGo]
            rw [if_neg h1, if_neg h2, if_neg (by omega)]]
          have hih := ih (max cursor (min e reqE)) hv_tl hpw_tl (by omega) hcur2
          constructor
          · intro h
            obtain ⟨p, hp, hpx⟩ := h
            rw [List.mem_append] at hp
            rcases hp with hp | hp
            · by_cases h4 : max s reqS > cursor
              · rw [if_pos h4, List.mem_singleton] at hp
                subst hp
                simp only at hpx
                refine ⟨hpx.1, by omega, ?_⟩
                rw [coveredBy_cons]
                rintro (h | h)
                · omega
                · obtain ⟨p, hp, hpx2⟩ := h
                  have := htl_gap p hp
                  omega
              · rw [if_neg h4] at hp
                exact absurd hp (List.not_mem_nil p)
            · have := hih.mp ⟨p, hp, hpx⟩
              refine ⟨by omega, this.2.1, ?_⟩
              rw [coveredBy_cons]
              rintro (h | h)
              · omega
              · exact this.2.2 h
          · rintro ⟨ha, hb, hc⟩
            rw [coveredBy_cons] at hc
            push_neg at hc
            obtain ⟨hc1, hc2⟩ := hc
            by_cases hx : x < s
            · refine ⟨(cursor, max s reqS), ?_, ?_⟩
              · rw [List.mem_append]
                exact Or.inl (by rw [if_pos (by omega)]; exact List.mem_singleton.mpr rfl)
              · simp only
                omega
            · have hxe : e ≤ x := by omega
              obtain ⟨p, hp, hpx⟩ := hih.mpr ⟨by omega, hb, hc2⟩
              exact ⟨p, List.mem_append.mpr (Or.inr hp), hpx⟩

/-- Structure of the gap walk output: every gap is non-empty, starts at or
after the cursor, ends at or before `reqE`, and the gaps are pairwise
separated by strict gaps (hence sorted and disjoint). -/
theorem missingGo_struct (reqS reqE : Int) (L : List RangeMs) :
    ∀ cursor : Int, cursor < reqE → reqS < reqE →
    (∀ p ∈ L, p.1 < p.2) →
    (∀ g ∈ missingGo reqS reqE cursor L, cursor ≤ g.1 ∧ g.1 < g.2 ∧ g.2 ≤ reqE) ∧
      List.Pairwise gapRel (missingGo reqS reqE cursor L) := by
  induction L with
  | nil =>
    intro cursor hlt _ _
    rw [show missingGo reqS reqE cursor [] = [(cursor, reqE)] by
      simp only [missingGo]; rw [if_pos hlt]]
    constructor
    · intro g hg
      rw [List.mem_singleton] at hg
      subst hg
      exact ⟨le_refl _, hlt, le_refl _⟩
    · simp
  | cons hd tl ih =>
    obtain ⟨s, e⟩ := hd
    intro cursor hlt hreq hv
    have hse : s < e := hv (s, e) (List.mem_cons_self _ _)
    have hv_tl : ∀ p ∈ tl, p.1 < p.2 := fun p hp => hv p (List.mem_cons_of_mem _ hp)
    by_cases h1 : e ≤ reqS
    · rw [show missingGo reqS reqE cursor ((s, e) :: tl) = missingGo reqS reqE cursor tl by
        simp only [missingGo]; rw [if_pos h1]]
      exact ih cursor hlt hreq hv_tl
    · by_cases h2 : s ≥ reqE
      · rw [show missingGo reqS reqE cursor ((s, e) :: tl) = [(cursor, reqE)] by
          simp only [missingGo]; rw [if_neg h1, if_pos h2, if_pos hlt]]
        constructor
        · intro g hg
          rw [List.mem_singleton] at hg
          subst hg
          exact ⟨le_refl _, hlt, le_refl _⟩
        · simp
      · by_cases h3 : max cursor (min e reqE) ≥ reqE
        · rw [show missingGo reqS reqE cursor ((s, e) :: tl) =
              (if max s reqS > cursor then [(cursor, max s reqS)] else []) by
            simp only [missingGo]
            rw [if_neg h1, if_neg h2, if_pos h3]]
          by_cases h4 : max s reqS > cursor
          · rw [if_pos h4]
            constructor
            · intro g hg
              rw [List.mem_singleton] at hg
              subst hg
              refine ⟨le_refl _, h4, by omega⟩
            · simp
          · rw [if_neg h4]
            exact ⟨fun g hg => absurd hg (List.not_mem_nil g), List.Pairwise.nil⟩
        · have hcur2 : max cursor (min e reqE) < reqE := by omega
          rw [show missingGo reqS reqE cursor ((s, e) :: tl) =
              (if max s reqS > cursor then [(cursor, max s reqS)] else []) ++
                missingGo reqS reqE (max cursor (min e reqE)) tl by
            simp only [missingGo]
            rw [if_neg h1, if_neg h2, if_neg (by omega)]]
          obtain ⟨ihb, ihpw⟩ := ih (max cursor (min e reqE)) hcur2 hreq hv_tl
          by_cases h4 : max s reqS > cursor
          · rw [if_pos h4, List.singleton_append]
            constructor
            · intro g hg
              rcases List.mem_cons.mp hg with h | h
              · subst h
                refine ⟨le_refl _, h4, by omega⟩
              · obtain ⟨hg1, hg2, hg3⟩ := ihb g h
                exact ⟨by omega, hg2, hg3⟩
            · rw [List.pairwise_cons]
              refine ⟨fun g hg => ?_, ihpw⟩
              have := (ihb g hg).1
              unfold gapRel
              simp only
              omega
          · rw [if_neg h4, List.nil_append]
            constructor
            · intro g hg
              obtain ⟨hg1, hg2, hg3⟩ := ihb g hg
              exact ⟨by omega, hg2, hg3⟩
            · exact ihpw

/-- **C1**: For every valid requested window (`requested_start_ms <
requested_end_ms`) and every finite list of cached half-open ranges,
`compute_missing_subranges` returns a sorted, pairwise-disjoint list of
non-empty intervals lying inside the requested window, whose union is
disjoint from the cached ranges, and whose union together with the
intersection of the cached ranges and the window is exactly the requested
window `[requested_start_ms, requested_end_ms)` — no gaps, no overlaps, no
out-of-window spill. -/
theorem compute_missing_subranges_correct
    (reqS reqE : Int) (cached : List RangeMs) (h : reqS < reqE) :
    ∃ gaps : List RangeMs,
      compute_missing_subranges reqS reqE cached = Except.ok gaps ∧
      (∀ g ∈ gaps, reqS ≤ g.1 ∧ g.1 < g.2 ∧ g.2 ≤ reqE) ∧
      List.Pairwise gapRel gaps ∧
      (∀ x : Int, coveredBy gaps x → ¬ coveredBy cached x) ∧
      (∀ x : Int, (reqS ≤ x ∧ x < reqE) ↔
        (coveredBy gaps x ∨ (coveredBy cached x ∧ reqS ≤ x ∧ x < reqE))) := by
  obtain ⟨hvN, hpwN⟩ := normalize_chain cached
  refine ⟨missingGo reqS reqE reqS (_normalize_ranges cached), ?_, ?_, ?_, ?_, ?_⟩
  · unfold compute_missing_subranges
    rw [if_neg (by omega)]
  · intro g hg
    exact (missingGo_struct reqS reqE _ reqS h h hvN).1 g hg
  · exact (missingGo_struct reqS reqE _ reqS h h hvN).2
  · intro x hx
    have := (missingGo_mem reqS reqE x _ reqS hvN hpwN (le_refl _) h).mp hx
    rw [normalize_mem x cached] at this
    exact this.2.2
  · intro x
    constructor
    · rintro ⟨hx1, hx2⟩
      by_cases hc : coveredBy cached x
      · exact Or.inr ⟨hc, hx1, hx2⟩
      · refine Or.inl ?_
        rw [missingGo_mem reqS reqE x _ reqS hvN hpwN (le_refl _) h]
        rw [normalize_mem x cached]
        exact ⟨hx1, hx2, hc⟩
    · rintro (hx | ⟨_, hx1, hx2⟩)
      · have := (missingGo_mem reqS reqE x _ reqS hvN hpwN (le_refl _) h).mp hx
        exact ⟨this.1, this.2.1⟩
      · exact ⟨hx1, hx2⟩

/-- Witness for C1 at the concrete window `[0, 10)` with cached ranges
`[2, 4)` and `[6, 8)`. -/
theorem compute_missing_subranges_correct_witness :
    (0 : Int) < 10 ∧
    (∃ gaps : List RangeMs,
      compute_missing_subranges 0 10 [(2, 4), (6, 8)] = Except.ok gaps ∧
      (∀ g ∈ gaps, (0 : Int) ≤ g.1 ∧ g.1 < g.2 ∧ g.2 ≤ 10) ∧
      List.Pairwise gapRel gaps ∧
      (∀ x : Int, coveredBy gaps x → ¬ coveredBy [(2, 4), (6, 8)] x) ∧
      (∀ x : Int, ((0 : Int) ≤ x ∧ x < 10) ↔
        (coveredBy gaps x ∨ (coveredBy [(2, 4), (6, 8)] x ∧ (0 : Int) ≤ x ∧ x < 10)))) :=
  ⟨by norm_num, compute_missing_subranges_correct 0 10 [(2, 4), (6, 8)] (by norm_num)⟩

/-- **C8**: `compute_missing_subranges` raises an invalid-window `ValueError`
whenever `requested_end_ms ≤ requested_start_ms`, before inspecting the
cached ranges; in that case it never returns a list (in particular never an
empty one). -/
theorem compute_missing_subranges_invalid_window
    (reqS reqE : Int) (cached : List RangeMs) (h : reqE ≤ reqS) :
    compute_missing_subranges reqS reqE cached =
        Except.error "requested_end_ms must be greater than requested_start_ms" ∧
      ∀ l : List RangeMs, compute_missing_subranges reqS reqE cached ≠ Except.ok l := by
  constructor
  · unfold compute_missing_subranges
    rw [if_pos h]
  · intro l hl
    unfold compute_missing_subranges at hl
    rw [if_pos h] at hl
    exact Except.noConfusion hl

/-- Witness for C8 at the degenerate window `[1000, 1000)` (the input of the
repository's own test `test_compute_missing_subranges_rejects_invalid_window`). -/
theorem compute_missing_subranges_invalid_window_witness :
    (1000 : Int) ≤ 1000 ∧
    (compute_missing_subranges 1000 1000 [] =
        Except.error "requested_end_ms must be greater than requested_start_ms" ∧
      ∀ l : List RangeMs, compute_missing_subranges 1000 1000 [] ≠ Except.ok l) :=
  ⟨le_refl _, compute_missing_subranges_invalid_window 1000 1000 [] (le_refl _)⟩

/-- **C10**: `_normalize_ranges` is coverage-preserving — the union of the
intervals it returns equals the union of the input intervals having
`end > start` (invalid intervals are dropped, no covered point is lost or
added) — and idempotent: applying it to its own output returns the same
list. -/
theorem normalize_ranges_coverage_and_idem (l : List RangeMs) :
    (∀ x : Int, coveredBy (_normalize_ranges l) x ↔
      ∃ p ∈ l, p.1 < p.2 ∧ p.1 ≤ x ∧ x < p.2) ∧
    _normalize_ranges (_normalize_ranges l) = _normalize_ranges l := by
  constructor
  · intro x
    rw [normalize_mem x l]
    unfold coveredBy
    constructor
    · rintro ⟨p, hp, h1, h2⟩
      exact ⟨p, hp, by omega, h1, h2⟩
    · rintro ⟨p, hp, _, h1, h2⟩
      exact ⟨p, hp, h1, h2⟩
  · exact normalize_idem l

/-! ## Streaming segment writer (`service.py`) -/

/-- A decoded Log Search event as produced by `_decode_events_payload`
(`service.py` lines 117-155): a Python dict.  Only the keys inspected by the
writer are modeled; values are modeled by the textual form used in the
f-string that builds the dedupe key, with `none` for an absent key (or a
`None` value).  `timestamp` is `some` exactly when the dict holds an
`int`/`float` value under `"timestamp"`. -/
structure Event where
  log_id : Option String
  sequence_number_str : Option String
  sequence_number : Option String
  timestamp : Option Int
deriving DecidableEq

/-- `LogIngestionService._event_dedupe_key` (`service.py` lines 157-175):
prefer `sequence_number_str`, fall back to `sequence_number`; return `None`
when either `log_id` or the sequence number is missing. -/
def _event_dedupe_key (ev : Event) : Option String :=
  let seq := match ev.sequence_number_str with
    | some s => some s
    | none => ev.sequence_number
  match ev.log_id, seq with
  | some l, some s => some (l ++ ":" ++ s)
  | _, _ => none

/-- One fetch page as consumed by the streaming writer.  The provider
`events` field is modeled by the result of `_decode_events_payload`: `none`
when the field is missing or undecodable (the writer then skips the page,
exactly as it does for an empty decoded list). -/
structure Page where
  events : Option (List Event)

/-- The events the writer iterates over for one page
(`page_events = self._decode_events_payload(...)`; `if not page_events:
continue` treats `None` and `[]` alike). -/
def pageEvents (p : Page) : List Event :=
  match p.events with
  | none => []
  | some l => l

/-- A cache segment directory.  `segment_dir_for_range` (`cache_index.py`
lines 94-97) produces the deterministic path
`{cache_root}/{log_id}/from={start}/to={end}`; the path is modeled by its
four components. -/
structure SegDir where
  cache_root : String
  log_id : String
  from_ms : Int
  to_ms : Int
deriving DecidableEq

/-- `segment_dir_for_range` (`cache_index.py` lines 94-97). -/
def segment_dir_for_range (cache_root : String) (log_id : String)
    (start_ms end_ms : Int) : SegDir :=
  ⟨cache_root, log_id, start_ms, end_ms⟩

/-- The configuration fields of `LogIngestionConfig` (`config.py`) consumed
by the embedded code. -/
structure LogIngestionConfig where
  rapid7_log_key : String
  cache_dir : String
  bypass_cache : Bool
  batch_size : Int
  flush_rows : Int
  dedupe_events : Bool
  max_pages : Nat

/-- The mutable locals of `_write_events_streaming_to_cache_segment`
(`service.py` lines 196-221), plus `parts`: the model of the part files the
writer has created in the segment directory (pairs of part index and row
count), standing in for the filesystem. -/
structure WriterState where
  buffer : List Event
  rows_processed : Nat
  part_idx : Nat
  seen_keys : List String
  duplicates_dropped : Nat
  raw_events_seen : Nat
  observed_min_ts_ms : Option Int
  observed_max_ts_ms : Option Int
  parquet_total_bytes_written : Int
  parquet_part_bytes_min : Option Int
  parquet_part_bytes_max : Option Int
  parts : List (Nat × Nat)

/-- The initial writer state (all counters zero, empty buffer). -/
def initWriterState : WriterState :=
  ⟨[], 0, 0, [], 0, 0, none, none, 0, none, none, []⟩

/-- `_update_part_bytes` (`service.py` lines 213-221). -/
def updatePartBytes (st : WriterState) (num_bytes : Option Int) : WriterState :=
  match num_bytes with
  | none => st
  | some b =>
    { st with
      parquet_total_bytes_written := st.parquet_total_bytes_written + b
      parquet_part_bytes_min :=
        match st.parquet_part_bytes_min with
        | none => some b
        | some m => if b < m then some b else some m
      parquet_part_bytes_max :=
        match st.parquet_part_bytes_max with
        | none => some b
        | some m => if b > m then some b else some m }

/-- Modelled from the spec: `ParquetWriter.write_part` is called by
`_write_events_streaming_to_cache_segment` (`service.py` lines 264 and 292)
but is not defined under `src/` (only its callers are present).  Per the
spec (§4.4 Buffering and flush) it writes the buffered rows as a new,
uniquely-numbered part file under the segment directory and returns the
written file and its size in bytes.  The write is modeled by recording
`(part_idx, row_count)` in `WriterState.parts`; the returned byte size is an
uninterpreted function `write_part_bytes` of the rows and part index. -/
def flushPart (write_part_bytes : Nat → Nat → Option Int) (st : WriterState) :
    WriterState :=
  let st' := updatePartBytes st (write_part_bytes st.buffer.length st.part_idx)
  { st' with
    parts := st'.parts ++ [(st'.part_idx, st'.buffer.length)]
    part_idx := st'.part_idx + 1
    buffer := [] }

/-- Timestamp-extent tracking (`service.py` lines 234-238). -/
def trackTs (st : WriterState) (ev : Event) : WriterState :=
  match ev.timestamp with
  | none => st
  | some ts =>
    { st with
      observed_min_ts_ms :=
        match st.observed_min_ts_ms with
        | none => some ts
        | some m => some (min m ts)
      observed_max_ts_ms :=
        match st.observed_max_ts_ms with
        | none => some ts
        | some m => some (max m ts) }

/-- `buffer.append(ev)` followed by `rows_processed += 1`
(`service.py` lines 248-249). -/
def bufferEvent (ev : Event) (st : WriterState) : WriterState :=
  { st with buffer := st.buffer ++ [ev],
            rows_processed := st.rows_processed + 1 }

/-- Buffering an accepted event and flushing when the buffer reaches
`flush_rows` (`service.py` lines 248-276). -/
def acceptEvent (flush_rows : Int) (write_part_bytes : Nat → Nat → Option Int)
    (ev : Event) (st : WriterState) : WriterState :=
  let st := bufferEvent ev st
  if (st.buffer.length : Int) ≥ flush_rows then flushPart write_part_bytes st
  else st

/-- One iteration of the inner `for ev in page_events` loop of
`_write_events_streaming_to_cache_segment` (`service.py` lines 231-276):
count the raw event, track the observed timestamp extent, drop a duplicate
when dedup is enabled and the key was already seen, otherwise buffer the
event and flush a part once the buffer reaches `flush_rows`. -/
def streamStep (dedupe_enabled : Bool) (flush_rows : Int)
    (write_part_bytes : Nat → Nat → Option Int)
    (st : WriterState) (ev : Event) : WriterState :=
  let st := trackTs { st with raw_events_seen := st.raw_events_seen + 1 } ev
  if dedupe_enabled then
    match _event_dedupe_key ev with
    | some key =>
      if key ∈ st.seen_keys then
        { st with duplicates_dropped := st.duplicates_dropped + 1 }
      else
        acceptEvent flush_rows write_part_bytes ev { st with seen_keys := key :: st.seen_keys }
    | none => acceptEvent flush_rows write_part_bytes ev st
  else acceptEvent flush_rows write_part_bytes ev st

/-- The outer `for page in pages` loop (`service.py` lines 223-276). -/
def streamPages (dedupe_enabled : Bool) (flush_rows : Int)
    (write_part_bytes : Nat → Nat → Option Int)
    (pages : List Page) : WriterState :=
  pages.foldl
    (fun st p => (pageEvents p).foldl (streamStep dedupe_enabled flush_rows write_part_bytes) st)
    initWriterState

/-- The statistics dict returned by the streaming writer (`service.py`
lines 305-337). -/
structure StreamStats where
  dedupe_enabled : Bool
  raw_events_seen : Nat
  duplicates_dropped : Nat
  observed_min_ts_ms : Option Int
  observed_max_ts_ms : Option Int
  parquet_total_bytes_written : Int
  parquet_part_bytes_min : Option Int
  parquet_part_bytes_max : Option Int
deriving DecidableEq

/-- The 4-tuple returned by `_write_events_streaming_to_cache_segment`,
plus `parts`: the part files now present in the segment directory (model of
the filesystem effect). -/
structure WriteResult where
  dataset_dir : Option SegDir
  rows_processed : Nat
  parts_written : Nat
  stats : StreamStats
  parts : List (Nat × Nat)

/-- The writer state after the page loop and the final flush of a non-empty
buffer (`service.py` lines 278-303). -/
def finalWriterState (cfg : LogIngestionConfig)
    (write_part_bytes : Nat → Nat → Option Int) (pages : List Page) : WriterState :=
  let st := streamPages cfg.dedupe_events cfg.flush_rows write_part_bytes pages
  if st.buffer.isEmpty then st else flushPart write_part_bytes st

/-- `LogIngestionService._write_events_streaming_to_cache_segment`
(`service.py` lines 177-337): stream events page by page, dedupe, flush full
buffers as parts, flush the remainder, and return
`(dataset_dir, rows_processed, parts_written, stats)` — with `None, 0, 0`
when no row was accepted. -/
def _write_events_streaming_to_cache_segment (cfg : LogIngestionConfig)
    (write_part_bytes : Nat → Nat → Option Int)
    (log_id : String) (start_ms end_ms : Int) (pages : List Page) : WriteResult :=
  let segment_dir := segment_dir_for_range cfg.cache_dir log_id start_ms end_ms
  let st := finalWriterState cfg write_part_bytes pages
  let stats : StreamStats :=
    ⟨cfg.dedupe_events, st.raw_events_seen, st.duplicates_dropped,
      st.observed_min_ts_ms, st.observed_max_ts_ms,
      st.parquet_total_bytes_written, st.parquet_part_bytes_min,
      st.parquet_part_bytes_max⟩
  if st.rows_processed = 0 then
    ⟨none, 0, 0, stats, st.parts⟩
  else
    ⟨some segment_dir, st.rows_processed, st.part_idx, stats, st.parts⟩

/-- The events consumed across all pages, in order. -/
def consumedEvents (pages : List Page) : List Event :=
  (pages.map pageEvents).flatten

/-- `trackTs` only touches the observed-timestamp fields. -/
theorem trackTs_preserves (st : WriterState) (ev : Event) :
    (trackTs st ev).buffer = st.buffer ∧
    (trackTs st ev).rows_processed = st.rows_processed ∧
    (trackTs st ev).part_idx = st.part_idx ∧
    (trackTs st ev).seen_keys = st.seen_keys ∧
    (trackTs st ev).duplicates_dropped = st.duplicates_dropped ∧
    (trackTs st ev).raw_events_seen = st.raw_events_seen ∧
    (trackTs st ev).parts = st.parts := by
  cases hts : ev.timestamp <;> simp [trackTs, hts]

/-- `flushPart` does not change the row / raw / duplicate counters or the
seen-key set. -/
theorem flushPart_counts (wpb : Nat → Nat → Option Int) (st : WriterState) :
    (flushPart wpb st).rows_processed = st.rows_processed ∧
    (flushPart wpb st).raw_events_seen = st.raw_events_seen ∧
    (flushPart wpb st).duplicates_dropped = st.duplicates_dropped := by
  cases h : wpb st.buffer.length st.part_idx <;>
    simp [flushPart, updatePartBytes, h]

/-- `acceptEvent` increments the row count and leaves the raw / duplicate
counters alone. -/
theorem acceptEvent_counts (k : Int) (wpb : Nat → Nat → Option Int)
    (ev : Event) (st : WriterState) :
    (acceptEvent k wpb ev st).rows_processed = st.rows_processed + 1 ∧
    (acceptEvent k wpb ev st).raw_events_seen = st.raw_events_seen ∧
    (acceptEvent k wpb ev st).duplicates_dropped = st.duplicates_dropped := by
  unfold acceptEvent
  dsimp only
  split
  · exact ⟨(flushPart_counts wpb _).1, (flushPart_counts wpb _).2.1,
      (flushPart_counts wpb _).2.2⟩
  · exact ⟨rfl, rfl, rfl⟩

/-- Counting behaviour of one writer step: the raw counter always advances by
one, exactly one of the row / duplicate counters advances by one, a duplicate
can only be counted for an event that has a usable dedupe key, and with dedup
disabled the duplicate counter never moves. -/
theorem streamStep_counts (d : Bool) (k : Int) (wpb : Nat → Nat → Option Int)
    (st : WriterState) (ev : Event) :
    ((streamStep d k wpb st ev).raw_events_seen = st.raw_events_seen + 1) ∧
    ((streamStep d k wpb st ev).rows_processed +
        (streamStep d k wpb st ev).duplicates_dropped
      = st.rows_processed + st.duplicates_dropped + 1) ∧
    ((streamStep d k wpb st ev).duplicates_dropped
      ≤ st.duplicates_dropped +
          (if (_event_dedupe_key ev).isSome then 1 else 0)) ∧
    (d = false → (streamStep d k wpb st ev).duplicates_dropped
      = st.duplicates_dropped) := by
  obtain ⟨hb, hr, hp, hs, hdup, hraw, hparts⟩ :=
    trackTs_preserves { st with raw_events_seen := st.raw_events_seen + 1 } ev
  simp only [streamStep]
  cases d with
  | false =>
    rw [if_neg (by simp)]
    obtain ⟨a1, a2, a3⟩ := acceptEvent_counts k wpb ev
      (trackTs { st with raw_events_seen := st.raw_events_seen + 1 } ev)
    refine ⟨?_, ?_, ?_, fun _ => ?_⟩
    · rw [a2, hraw]
    · rw [a1, a3, hr, hdup]; (try dsimp only); (try simp); (try omega)
    · rw [a3, hdup]; (try dsimp only); (try simp); (try omega)
    · rw [a3, hdup]
  | true =>
    rw [if_pos rfl]
    rcases hk : _event_dedupe_key ev with _ | key
    · simp only [hk]
      obtain ⟨a1, a2, a3⟩ := acceptEvent_counts k wpb ev
        (trackTs { st with raw_events_seen := st.raw_events_seen + 1 } ev)
      refine ⟨?_, ?_, ?_, fun hf => Bool.noConfusion hf⟩
      · rw [a2, hraw]
      · rw [a1, a3, hr, hdup]; (try dsimp only); (try simp); (try omega)
      · rw [a3, hdup]; (try dsimp only); (try simp); (try omega)
    · simp only [hk]
      by_cases hmem : key ∈ (trackTs
          { st with raw_events_seen := st.raw_events_seen + 1 } ev).seen_keys
      · rw [if_pos hmem]
        refine ⟨?_, ?_, ?_, fun hf => Bool.noConfusion hf⟩
        · simp only [hraw]; (try dsimp only)
        · simp only [hr, hdup]; (try dsimp only); (try simp); (try omega)
        · simp only [hdup, hk, Option.isSome_some]; (try dsimp only); (try simp); (try omega)
      · rw [if_neg hmem]
        obtain ⟨a1, a2, a3⟩ := acceptEvent_counts k wpb ev
          { (trackTs { st with raw_events_seen := st.raw_events_seen + 1 } ev) with
            seen_keys := key :: (trackTs
              { st with raw_events_seen := st.raw_events_seen + 1 } ev).seen_keys }
        refine ⟨?_, ?_, ?_, fun hf => Bool.noConfusion hf⟩
        · rw [a2]; simp only [hraw]; (try dsimp only)
        · rw [a1, a3]; simp only [hr, hdup]; (try dsimp only); (try simp); (try omega)
        · rw [a3]; simp only [hdup]; (try dsimp only); (try simp); (try omega)

/-- Counting behaviour of a writer fold over a list of events. -/
theorem streamFold_counts (d : Bool) (k : Int) (wpb : Nat → Nat → Option Int)
    (evs : List Event) :
    ∀ st : WriterState,
    ((evs.foldl (streamStep d k wpb) st).raw_events_seen
      = st.raw_events_seen + evs.length) ∧
    ((evs.foldl (streamStep d k wpb) st).rows_processed +
        (evs.foldl (streamStep d k wpb) st).duplicates_dropped
      = st.rows_processed + st.duplicates_dropped + evs.length) ∧
    ((evs.foldl (streamStep d k wpb) st).duplicates_dropped
      ≤ st.duplicates_dropped +
          evs.countP (fun ev => (_event_dedupe_key ev).isSome)) ∧
    (d = false → (evs.foldl (streamStep d k wpb) st).duplicates_dropped
      = st.duplicates_dropped) := by
  induction evs with
  | nil => intro st; simp
  | cons ev tl ih =>
    intro st
    obtain ⟨s1, s2, s3, s4⟩ := streamStep_counts d k wpb st ev
    obtain ⟨i1, i2, i3, i4⟩ := ih (streamStep d k wpb st ev)
    simp only [List.foldl_cons, List.length_cons, List.countP_cons]
    refine ⟨by omega, by omega, ?_, fun hf => by rw [i4 hf, s4 hf]⟩
    by_cases hkey : (_event_dedupe_key ev).isSome = true
    · simp [hkey] at s3 ⊢
      omega
    · simp [hkey] at s3 ⊢
      omega

/-- Processing the pages one by one is processing the concatenation of their
decoded events. -/
theorem streamPages_eq (d : Bool) (k : Int) (wpb : Nat → Nat → Option Int)
    (pages : List Page) :
    streamPages d k wpb pages
      = (consumedEvents pages).foldl (streamStep d k wpb) initWriterState := by
  unfold streamPages consumedEvents
  generalize initWriterState = st
  induction pages generalizing st with
  | nil => rfl
  | cons p tl ih =>
    simp only [List.foldl_cons, List.map_cons, List.flatten_cons, List.foldl_append]
    exact ih _

/-- Every event either has a usable dedupe key or lacks one. -/
theorem countP_key_split (evs : List Event) :
    evs.countP (fun ev => (_event_dedupe_key ev).isSome) +
      evs.countP (fun ev => (_event_dedupe_key ev).isNone) = evs.length := by
  induction evs with
  | nil => simp
  | cons ev tl ih =>
    simp only [List.countP_cons, List.length_cons]
    rcases h : _event_dedupe_key ev with _ | key <;> simp [h] <;> omega

/-- Counter behaviour of the post-loop writer state. -/
theorem finalWriterState_counts (cfg : LogIngestionConfig)
    (wpb : Nat → Nat → Option Int) (pages : List Page) :
    ((finalWriterState cfg wpb pages).raw_events_seen
      = (consumedEvents pages).length) ∧
    ((finalWriterState cfg wpb pages).rows_processed +
        (finalWriterState cfg wpb pages).duplicates_dropped
      = (consumedEvents pages).length) ∧
    ((finalWriterState cfg wpb pages).duplicates_dropped
      ≤ (consumedEvents pages).countP (fun ev => (_event_dedupe_key ev).isSome)) ∧
    (cfg.dedupe_events = false →
      (finalWriterState cfg wpb pages).duplicates_dropped = 0) := by
  obtain ⟨c1, c2, c3, c4⟩ := streamFold_counts cfg.dedupe_events cfg.flush_rows wpb
    (consumedEvents pages) initWriterState
  rw [← streamPages_eq] at c1 c2 c3 c4
  simp only [initWriterState] at c1 c2 c3 c4
  unfold finalWriterState
  dsimp only
  split
  · exact ⟨by omega, by omega, by omega, c4⟩
  · obtain ⟨f1, f2, f3⟩ := flushPart_counts wpb
      (streamPages cfg.dedupe_events cfg.flush_rows wpb pages)
    exact ⟨by omega, by omega, by omega, fun hf => by rw [f3, c4 hf]⟩

/-- The writer result exposes the counters of the post-loop state; the
no-rows branch additionally forces the `(None, 0, 0, …)` shape. -/
theorem write_result_proj (cfg : LogIngestionConfig)
    (wpb : Nat → Nat → Option Int) (log_id : String) (start_ms end_ms : Int)
    (pages : List Page) :
    ((_write_events_streaming_to_cache_segment cfg wpb log_id start_ms end_ms
        pages).stats.raw_events_seen
      = (finalWriterState cfg wpb pages).raw_events_seen) ∧
    ((_write_events_streaming_to_cache_segment cfg wpb log_id start_ms end_ms
        pages).stats.duplicates_dropped
      = (finalWriterState cfg wpb pages).duplicates_dropped) ∧
    ((_write_events_streaming_to_cache_segment cfg wpb log_id start_ms end_ms
        pages).rows_processed
      = (finalWriterState cfg wpb pages).rows_processed) ∧
    ((_write_events_streaming_to_cache_segment cfg wpb log_id start_ms end_ms
        pages).parts
      = (finalWriterState cfg wpb pages).parts) ∧
    ((_write_events_streaming_to_cache_segment cfg wpb log_id start_ms end_ms
        pages).parts_written
      = if (finalWriterState cfg wpb pages).rows_processed = 0 then 0
        else (finalWriterState cfg wpb pages).part_idx) ∧
    ((_write_events_streaming_to_cache_segment cfg wpb log_id start_ms end_ms
        pages).dataset_dir
      = if (finalWriterState cfg wpb pages).rows_processed = 0 then none
        else some (segment_dir_for_range cfg.cache_dir log_id start_ms end_ms)) := by
  unfold _write_events_streaming_to_cache_segment
  dsimp only
  by_cases h : (finalWriterState cfg wpb pages).rows_processed = 0
  · rw [if_pos h] <;> simp [h]
  · rw [if_neg h] <;> simp [h]

/-- **C4**: For every sequence of pages consumed by the streaming segment
writer, `raw_events_seen = rows_processed + duplicates_dropped` holds when
dedup is enabled; with dedup disabled `duplicates_dropped = 0` and
`rows_processed = raw_events_seen`; and an event lacking a usable
`(log_id, sequence_number)` dedupe key is never dropped (the accepted row
count is at least the number of keyless events). -/
theorem writer_dedup_property (cfg : LogIngestionConfig)
    (wpb : Nat → Nat → Option Int) (log_id : String) (start_ms end_ms : Int)
    (pages : List Page) :
    ((cfg.dedupe_events = true →
      (_write_events_streaming_to_cache_segment cfg wpb log_id start_ms end_ms
          pages).stats.raw_events_seen
        = (_write_events_streaming_to_cache_segment cfg wpb log_id start_ms
            end_ms pages).rows_processed +
          (_write_events_streaming_to_cache_segment cfg wpb log_id start_ms
            end_ms pages).stats.duplicates_dropped)) ∧
    ((cfg.dedupe_events = false →
      (_write_events_streaming_to_cache_segment cfg wpb log_id start_ms end_ms
          pages).stats.duplicates_dropped = 0 ∧
      (_write_events_streaming_to_cache_segment cfg wpb log_id start_ms end_ms
          pages).rows_processed
        = (_write_events_streaming_to_cache_segment cfg wpb log_id start_ms
            end_ms pages).stats.raw_events_seen)) ∧
    ((consumedEvents pages).countP (fun ev => (_event_dedupe_key ev).isNone)
      ≤ (_write_events_streaming_to_cache_segment cfg wpb log_id start_ms
          end_ms pages).rows_processed) := by
  obtain ⟨p1, p2, p3, _, _, _⟩ :=
    write_result_proj cfg wpb log_id start_ms end_ms pages
  obtain ⟨c1, c2, c3, c4⟩ := finalWriterState_counts cfg wpb pages
  have hsplit := countP_key_split (consumedEvents pages)
  refine ⟨fun _ => ?_, fun hf => ?_, ?_⟩
  · rw [p1, p2, p3]; omega
  · have := c4 hf
    rw [p1, p2, p3]
    constructor
    · omega
    · omega
  · rw [p3]; omega

/-- The partition bookkeeping invariant maintained by the writer loop:
accepted rows split into `part_idx` full parts of `flush_rows` rows plus the
buffered remainder, and parts written so far are numbered `0, 1, …`. -/
def partsInv (k : Nat) (st : WriterState) : Prop :=
  st.rows_processed = st.part_idx * k + st.buffer.length ∧
  st.buffer.length < k ∧
  st.parts.map Prod.fst = List.range st.part_idx

/-- `flushPart` only touches the buffer / part bookkeeping and byte stats. -/
theorem flushPart_parts (wpb : Nat → Nat → Option Int) (st : WriterState) :
    (flushPart wpb st).buffer = [] ∧
    (flushPart wpb st).part_idx = st.part_idx + 1 ∧
    (flushPart wpb st).parts = st.parts ++ [(st.part_idx, st.buffer.length)] := by
  cases h : wpb st.buffer.length st.part_idx <;>
    simp [flushPart, updatePartBytes, h]

/-- `acceptEvent` preserves the partition invariant. -/
theorem acceptEvent_inv (fr : Int) (wpb : Nat → Nat → Option Int) (ev : Event)
    (st : WriterState) (hfr : 1 ≤ fr) (hinv : partsInv fr.toNat st) :
    partsInv fr.toNat (acceptEvent fr wpb ev st) := by
  obtain ⟨h1, h2, h3⟩ := hinv
  have hbl : (bufferEvent ev st).buffer.length = st.buffer.length + 1 := by
    simp [bufferEvent]
  have hbr : (bufferEvent ev st).rows_processed = st.rows_processed + 1 := rfl
  have hbp : (bufferEvent ev st).part_idx = st.part_idx := rfl
  have hbparts : (bufferEvent ev st).parts = st.parts := rfl
  unfold acceptEvent
  dsimp only
  by_cases hc : (((bufferEvent ev st).buffer.length : Int) ≥ fr)
  · rw [if_pos hc]
    obtain ⟨f1, f2, f3⟩ := flushPart_parts wpb (bufferEvent ev st)
    obtain ⟨g1, g2, g3⟩ := flushPart_counts wpb (bufferEvent ev st)
    rw [hbl] at hc
    have hlen : st.buffer.length + 1 = fr.toNat := by omega
    refine ⟨?_, ?_, ?_⟩
    · rw [g1, f1, f2, hbr, hbp]
      simp only [List.length_nil, Nat.add_zero, Nat.succ_mul]
      omega
    · rw [f1]
      simp only [List.length_nil]
      omega
    · rw [f3, f2, hbparts, hbp, List.map_append, h3, List.map_cons,
        List.map_nil, List.range_succ]
  · rw [if_neg hc]
    rw [hbl] at hc
    refine ⟨?_, ?_, ?_⟩
    · rw [hbr, hbp, hbl]
      omega
    · rw [hbl]
      omega
    · rw [hbparts, hbp]
      exact h3

/-- One writer step preserves the partition invariant. -/
theorem streamStep_inv (d : Bool) (fr : Int) (wpb : Nat → Nat → Option Int)
    (st : WriterState) (ev : Event) (hfr : 1 ≤ fr)
    (hinv : partsInv fr.toNat st) :
    partsInv fr.toNat (streamStep d fr wpb st ev) := by
  obtain ⟨hb, hr, hp, hs, hdup, hraw, hparts⟩ :=
    trackTs_preserves { st with raw_events_seen := st.raw_events_seen + 1 } ev
  have hinv1 : partsInv fr.toNat
      (trackTs { st with raw_events_seen := st.raw_events_seen + 1 } ev) := by
    obtain ⟨h1, h2, h3⟩ := hinv
    exact ⟨by rw [hr, hb, hp]; exact h1, by rw [hb]; exact h2,
      by rw [hparts, hp]; exact h3⟩
  simp only [streamStep]
  cases d with
  | false =>
    rw [if_neg (by simp)]
    exact acceptEvent_inv fr wpb ev _ hfr hinv1
  | true =>
    rw [if_pos rfl]
    rcases hk : _event_dedupe_key ev with _ | key
    · simp only [hk]
      exact acceptEvent_inv fr wpb ev _ hfr hinv1
    · simp only [hk]
      by_cases hmem : key ∈ (trackTs
          { st with raw_events_seen := st.raw_events_seen + 1 } ev).seen_keys
      · rw [if_pos hmem]
        exact hinv1
      · rw [if_neg hmem]
        refine acceptEvent_inv fr wpb ev _ hfr ?_
        obtain ⟨h1, h2, h3⟩ := hinv1
        exact ⟨h1, h2, h3⟩

/-- The writer fold preserves the partition invariant. -/
theorem streamFold_inv (d : Bool) (fr : Int) (wpb : Nat → Nat → Option Int)
    (evs : List Event) (hfr : 1 ≤ fr) :
    ∀ st : WriterState, partsInv fr.toNat st →
    partsInv fr.toNat (evs.foldl (streamStep d fr wpb) st) := by
  induction evs with
  | nil => intro st h; exact h
  | cons ev tl ih =>
    intro st h
    exact ih _ (streamStep_inv d fr wpb st ev hfr h)

/-- Ceiling division identity used for the flush count. -/
theorem ceil_div_eq (p len k : Nat) (hk : 1 ≤ k) (hlen : len < k) :
    (p * k + len + k - 1) / k = if len = 0 then p else p + 1 := by
  have hexp : (p + 1) * k = p * k + k := by ring
  by_cases h0 : len = 0
  · rw [if_pos h0]
    rw [show p * k + len + k - 1 = (k - 1) + p * k by omega]
    rw [Nat.add_mul_div_right _ _ (by omega : 0 < k)]
    rw [Nat.div_eq_of_lt (by omega)]
    omega
  · rw [if_neg h0]
    rw [show p * k + len + k - 1 = (len - 1) + (p + 1) * k by omega]
    rw [Nat.add_mul_div_right _ _ (by omega : 0 < k)]
    rw [Nat.div_eq_of_lt (by omega)]
    omega

/-- Partition structure of the post-loop writer state. -/
theorem finalWriterState_parts (cfg : LogIngestionConfig)
    (wpb : Nat → Nat → Option Int) (pages : List Page)
    (hfr : 1 ≤ cfg.flush_rows) :
    ((finalWriterState cfg wpb pages).part_idx
      = ((finalWriterState cfg wpb pages).rows_processed +
          cfg.flush_rows.toNat - 1) / cfg.flush_rows.toNat) ∧
    ((finalWriterState cfg wpb pages).parts.map Prod.fst
      = List.range (finalWriterState cfg wpb pages).part_idx) ∧
    ((finalWriterState cfg wpb pages).rows_processed = 0 →
      (finalWriterState cfg wpb pages).part_idx = 0 ∧
      (finalWriterState cfg wpb pages).parts = []) := by
  have hinit : partsInv cfg.flush_rows.toNat initWriterState :=
    ⟨by simp [initWriterState], by simp [initWriterState]; omega,
      by simp [initWriterState]⟩
  have hinv := streamFold_inv cfg.dedupe_events cfg.flush_rows wpb
    (consumedEvents pages) hfr initWriterState hinit
  rw [← streamPages_eq] at hinv
  obtain ⟨h1, h2, h3⟩ := hinv
  have hk : 1 ≤ cfg.flush_rows.toNat := by omega
  unfold finalWriterState
  dsimp only
  by_cases hemp : (streamPages cfg.dedupe_events cfg.flush_rows wpb pages).buffer.isEmpty
  · rw [if_pos hemp]
    have hlen0 : (streamPages cfg.dedupe_events cfg.flush_rows wpb pages).buffer.length = 0 := by
      rw [List.isEmpty_iff] at hemp
      rw [hemp]
      rfl
    rw [hlen0] at h1
    refine ⟨?_, h3, fun hz => ?_⟩
    · rw [h1, ceil_div_eq _ _ _ hk (by omega)]
      simp
    · have hp0 : (streamPages cfg.dedupe_events cfg.flush_rows wpb pages).part_idx = 0 := by
        rw [hz] at h1
        rcases Nat.eq_zero_of_add_eq_zero_right h1.symm with h
        exact Nat.eq_zero_of_mul_eq_zero h |>.resolve_right (by omega)
      refine ⟨hp0, ?_⟩
      have := h3
      rw [hp0, List.range_zero] at this
      exact List.map_eq_nil_iff.mp this
  · rw [if_neg hemp]
    obtain ⟨f1, f2, f3⟩ := flushPart_parts wpb
      (streamPages cfg.dedupe_events cfg.flush_rows wpb pages)
    obtain ⟨g1, g2, g3⟩ := flushPart_counts wpb
      (streamPages cfg.dedupe_events cfg.flush_rows wpb pages)
    have hlen : 0 < (streamPages cfg.dedupe_events cfg.flush_rows wpb pages).buffer.length := by
      rcases Nat.eq_zero_or_pos
        (streamPages cfg.dedupe_events cfg.flush_rows wpb pages).buffer.length with h | h
      · exact absurd (List.isEmpty_iff.mpr (List.length_eq_zero.mp h)) hemp
      · exact h
    refine ⟨?_, ?_, fun hz => ?_⟩
    · rw [f2, g1, h1, ceil_div_eq _ _ _ hk h2]
      rw [if_neg (by omega)]
    · rw [f3, f2, List.map_append, h3, List.map_cons, List.map_nil, List.range_succ]
    · rw [g1] at hz
      omega

/-- **C5**: For every flush threshold `flush_rows = k ≥ 1` and every page
sequence from which the writer accepts `N` events (after decoding and
deduplication), the streaming segment writer writes exactly `⌈N / k⌉` part
files, numbered consecutively from `0`; when `N = 0` it writes no part file
and returns `(None, 0, 0, stats)`. -/
theorem writer_flush_property (cfg : LogIngestionConfig)
    (wpb : Nat → Nat → Option Int) (log_id : String) (start_ms end_ms : Int)
    (pages : List Page) (hfr : 1 ≤ cfg.flush_rows) :
    ((_write_events_streaming_to_cache_segment cfg wpb log_id start_ms end_ms
        pages).parts_written
      = ((_write_events_streaming_to_cache_segment cfg wpb log_id start_ms
            end_ms pages).rows_processed + cfg.flush_rows.toNat - 1)
        / cfg.flush_rows.toNat) ∧
    ((_write_events_streaming_to_cache_segment cfg wpb log_id start_ms end_ms
        pages).parts.map Prod.fst
      = List.range (_write_events_streaming_to_cache_segment cfg wpb log_id
          start_ms end_ms pages).parts_written) ∧
    ((_write_events_streaming_to_cache_segment cfg wpb log_id start_ms end_ms
        pages).rows_processed = 0 →
      (_write_events_streaming_to_cache_segment cfg wpb log_id start_ms end_ms
        pages).dataset_dir = none ∧
      (_write_events_streaming_to_cache_segment cfg wpb log_id start_ms end_ms
        pages).parts_written = 0 ∧
      (_write_events_streaming_to_cache_segment cfg wpb log_id start_ms end_ms
        pages).parts = []) := by
  obtain ⟨p1, p2, p3, p4, p5, p6⟩ :=
    write_result_proj cfg wpb log_id start_ms end_ms pages
  obtain ⟨q1, q2, q3⟩ := finalWriterState_parts cfg wpb pages hfr
  have hk : 1 ≤ cfg.flush_rows.toNat := by omega
  by_cases hz : (finalWriterState cfg wpb pages).rows_processed = 0
  · obtain ⟨hz1, hz2⟩ := q3 hz
    refine ⟨?_, ?_, fun _ => ⟨?_, ?_, ?_⟩⟩
    · rw [p5, if_pos hz, p3, hz, Nat.zero_add, Nat.div_eq_of_lt (by omega)]
    · rw [p4, hz2, p5, if_pos hz, List.range_zero, List.map_nil]
    · rw [p6, if_pos hz]
    · rw [p5, if_pos hz]
    · rw [p4, hz2]
  · refine ⟨?_, ?_, fun habs => ?_⟩
    · rw [p5, if_neg hz, p3, q1]
    · rw [p4, q2, p5, if_neg hz]
    · rw [p3] at habs
      exact absurd habs hz

/-- Concrete configuration for the C5 witness: `flush_rows = 2`, dedup on. -/
def cfgFlushWitness : LogIngestionConfig :=
  ⟨"log-123", "cache", false, 1000, 2, true, 10000⟩

/-- Concrete page list for the C5 witness: one page with five events (the
input of the repository's own test
`test_flush_threshold_writes_multiple_parts_and_clears_buffer`). -/
def pagesFlushWitness : List Page :=
  [⟨some [⟨none, none, some "1", some 1⟩, ⟨none, none, some "2", some 2⟩,
          ⟨none, none, some "3", some 3⟩, ⟨none, none, some "4", some 4⟩,
          ⟨none, none, some "5", some 5⟩]⟩]

example :
    (_write_events_streaming_to_cache_segment cfgFlushWitness
      (fun _ _ => none) "log-123" 0 2000 pagesFlushWitness).rows_processed = 5 := rfl

example :
    (_write_events_streaming_to_cache_segment cfgFlushWitness
      (fun _ _ => none) "log-123" 0 2000 pagesFlushWitness).parts_written = 3 := rfl

/-- Witness for C5 at `flush_rows = 2` and five accepted events
(3 = ⌈5 / 2⌉ parts, numbered 0, 1, 2). -/
theorem writer_flush_property_witness :
    (1 : Int) ≤ cfgFlushWitness.flush_rows ∧
    (((_write_events_streaming_to_cache_segment cfgFlushWitness
        (fun _ _ => none) "log-123" 0 2000 pagesFlushWitness).parts_written
      = ((_write_events_streaming_to_cache_segment cfgFlushWitness
            (fun _ _ => none) "log-123" 0 2000
            pagesFlushWitness).rows_processed +
          cfgFlushWitness.flush_rows.toNat - 1)
        / cfgFlushWitness.flush_rows.toNat) ∧
    ((_write_events_streaming_to_cache_segment cfgFlushWitness
        (fun _ _ => none) "log-123" 0 2000 pagesFlushWitness).parts.map Prod.fst
      = List.range (_write_events_streaming_to_cache_segment cfgFlushWitness
          (fun _ _ => none) "log-123" 0 2000 pagesFlushWitness).parts_written) ∧
    ((_write_events_streaming_to_cache_segment cfgFlushWitness
        (fun _ _ => none) "log-123" 0 2000 pagesFlushWitness).rows_processed = 0 →
      (_write_events_streaming_to_cache_segment cfgFlushWitness
        (fun _ _ => none) "log-123" 0 2000 pagesFlushWitness).dataset_dir = none ∧
      (_write_events_streaming_to_cache_segment cfgFlushWitness
        (fun _ _ => none) "log-123" 0 2000 pagesFlushWitness).parts_written = 0 ∧
      (_write_events_streaming_to_cache_segment cfgFlushWitness
        (fun _ _ => none) "log-123" 0 2000 pagesFlushWitness).parts = [])) :=
  ⟨by decide, writer_flush_property cfgFlushWitness (fun _ _ => none)
    "log-123" 0 2000 pagesFlushWitness (by decide)⟩

/-! ## Fetch/poll client (`api_client.py`)

The bodies inspected by the pagination logic are modeled by their typed
shape: a `links` array of `{rel, href}` entries (`none` when the key is
absent or `None`).  The malformed-shape raises of `_links_map` (`links` not a
list, entries without `rel`/`href`) concern untyped payloads and are outside
the typed model. -/

/-- One entry of the `links` array of a Log Search response body. -/
structure Link where
  rel : String
  href : String
deriving DecidableEq

/-- A Log Search response body as inspected by the pagination logic. -/
structure Body where
  links : Option (List Link)
  events : Option (List Event)

/-- Python dict assignment `m[k] = v`: replace in place when the key exists,
append otherwise (insertion order preserved). -/
def dictSet (m : List (String × String)) (k v : String) : List (String × String) :=
  if m.any (fun p => p.1 = k) then
    m.map (fun p => if p.1 = k then (k, v) else p)
  else m ++ [(k, v)]

/-- Python `mapped.get(k)`. -/
def dictGet (m : List (String × String)) (k : String) : Option String :=
  (m.find? (fun p => p.1 = k)).map Prod.snd

/-- `Rapid7ApiClient._links_map` (`api_client.py` lines 393-412): `{}` for a
falsy `links` value, otherwise the `rel → href` map with later entries
overwriting earlier ones. -/
def _links_map (links : Option (List Link)) : List (String × String) :=
  match links with
  | none => []
  | some l =>
    if l.isEmpty then []
    else l.foldl (fun m lk => dictSet m lk.rel lk.href) []

/-- `Rapid7ApiClient._is_query_in_progress` (`api_client.py` lines 455-469):
no links means a terminal single page; `Self` means still running; `Next`
means page ready; anything else raises. -/
def _is_query_in_progress (links : Option (List Link)) : Except String Bool :=
  let m := _links_map links
  if m.isEmpty then Except.ok false
  else if (dictGet m "Self").isSome then Except.ok true
  else if (dictGet m "Next").isSome then Except.ok false
  else Except.error
    "Invalid Log Search response: 'links' present but missing rel 'Self' or 'Next'"

/-- `Rapid7ApiClient._has_next_page` (`api_client.py` lines 414-427):
pagination is driven solely by `links[rel=Next]`. -/
def _has_next_page (links : Option (List Link)) : Bool :=
  (dictGet (_links_map links) "Next").isSome

/-- The wait-duration signal carried by `RateLimitedException`. -/
structure RateLimitedSignal where
  secs_until_reset : Int
deriving DecidableEq

/-- Whitespace stripped by Python's `int(str)` conversion. -/
def isPySpace (c : Char) : Bool :=
  c = ' ' ∨ c = '\t' ∨ c = '\n' ∨ c = '\x0d' ∨ c = '\x0c' ∨ c = '\x0b'

/-- Digit run with optional single underscores between digits, as accepted
by Python's `int(str)` after the sign. -/
def pyDigits : List Char → Nat → Option Nat
  | [], acc => some acc
  | '_' :: c :: rest, acc =>
    if c.isDigit then pyDigits rest (acc * 10 + (c.toNat - '0'.toNat)) else none
  | c :: rest, acc =>
    if c.isDigit then pyDigits rest (acc * 10 + (c.toNat - '0'.toNat)) else none

/-- Python `int(s)` for an ASCII string: strip whitespace, optional sign,
then a non-empty digit run (underscore separators allowed); `none` models
the `ValueError` of an unparseable value. -/
def pyParseInt (s : String) : Option Int :=
  let cs := ((s.toList.dropWhile isPySpace).reverse.dropWhile isPySpace).reverse
  match cs with
  | [] => none
  | '+' :: rest =>
    match rest with
    | c :: rest2 => if c.isDigit then
        (pyDigits rest2 (c.toNat - '0'.toNat)).map Int.ofNat else none
    | [] => none
  | '-' :: rest =>
    match rest with
    | c :: rest2 => if c.isDigit then
        (pyDigits rest2 (c.toNat - '0'.toNat)).map (fun n => -(Int.ofNat n))
      else none
    | [] => none
  | c :: rest =>
    if c.isDigit then (pyDigits rest (c.toNat - '0'.toNat)).map Int.ofNat
    else none

/-- `_parse_secs` inside `_raise_rate_limited` (`api_client.py` lines
480-487): `None` stays `None`, otherwise Python `int(value)` with failures
mapped to `None`. -/
def _parse_secs (value : Option String) : Option Int :=
  match value with
  | none => none
  | some s => pyParseInt s

/-- `Rapid7ApiClient._raise_rate_limited` (`api_client.py` lines 471-502):
on a 429, prefer `Retry-After`, fall back to `X-RateLimit-Reset`, clamp to
`[1, 60]`, and raise `RateLimitedException` (modeled as returning the
signal; `none` models the plain return for non-429 statuses). -/
def _raise_rate_limited (status_code : Int)
    (retry_after reset : Option String) : Option RateLimitedSignal :=
  if status_code ≠ 429 then none
  else
    let secs0 :=
      match _parse_secs retry_after with
      | some n => some n
      | none => _parse_secs reset
    let secs1 :=
      match secs0 with
      | none => (1 : Int)
      | some n => if n < 1 then 1 else n
    let secs2 := if secs1 > 60 then 60 else secs1
    some ⟨secs2⟩

example : _raise_rate_limited 429 (some "30") (some "50")
    = some ⟨30⟩ := rfl
example : _raise_rate_limited 429 (some "notanint") (some "50")
    = some ⟨50⟩ := rfl
example : _raise_rate_limited 429 none none = some ⟨1⟩ := rfl
example : _raise_rate_limited 429 (some "0") none = some ⟨1⟩ := rfl
example : _raise_rate_limited 429 (some "-5") none = some ⟨1⟩ := rfl
example : _raise_rate_limited 429 (some "120") none = some ⟨60⟩ := rfl
example : _raise_rate_limited 200 (some "30") none = none := rfl

/-- **C9**: For every 429 response, the wait duration carried by the raised
rate-limit signal prefers an integer-parseable `Retry-After` header, falls
back to an integer-parseable `X-RateLimit-Reset` header, and always lies in
`[1, 60]` seconds: missing/unparseable values yield 1, values below 1 yield
1, values above 60 yield 60. -/
theorem rate_limited_wait_clamped (retry_after reset : Option String) :
    ∃ sig : RateLimitedSignal,
      _raise_rate_limited 429 retry_after reset = some sig ∧
      1 ≤ sig.secs_until_reset ∧ sig.secs_until_reset ≤ 60 ∧
      sig.secs_until_reset =
        match _parse_secs retry_after with
        | some n => if n < 1 then 1 else if n > 60 then 60 else n
        | none =>
          match _parse_secs reset with
          | some n => if n < 1 then 1 else if n > 60 then 60 else n
          | none => 1 := by
  unfold _raise_rate_limited
  rw [if_neg (by omega)]
  rcases h1 : _parse_secs retry_after with _ | n
  · rcases h2 : _parse_secs reset with _ | n
    · exact ⟨⟨1⟩, by simp [h1, h2], by norm_num, by norm_num, by simp [h1, h2]⟩
    · refine ⟨⟨if (if n < 1 then 1 else n) > 60 then 60 else if n < 1 then 1 else n⟩,
        by simp [h1, h2], ?_, ?_, ?_⟩
      · dsimp only; split <;> split <;> omega
      · dsimp only; split <;> split <;> omega
      · simp only [h1, h2]
        split <;> split <;> (try rfl) <;> (try omega) <;> split <;> omega
  · refine ⟨⟨if (if n < 1 then 1 else n) > 60 then 60 else if n < 1 then 1 else n⟩,
      by simp [h1], ?_, ?_, ?_⟩
    · dsimp only; split <;> split <;> omega
    · dsimp only; split <;> split <;> omega
    · simp only [h1]
      split <;> split <;> (try rfl) <;> (try omega) <;> split <;> omega

/-- Lookup in a one-step-extended dict. -/
theorem dictGet_cons (p : String × String) (m : List (String × String))
    (k : String) :
    dictGet (p :: m) k = if p.1 = k then some p.2 else dictGet m k := by
  by_cases h : p.1 = k <;> simp [dictGet, List.find?, h]

/-- Replacing the value stored under `k` does not affect other keys. -/
theorem dictGet_map_set (tl : List (String × String)) (k v k' : String)
    (hk : ¬ k' = k) :
    dictGet (tl.map (fun p => if p.1 = k then (k, v) else p)) k'
      = dictGet tl k' := by
  induction tl with
  | nil => rfl
  | cons hd tl ih =>
    simp only [List.map_cons]
    by_cases hhd : hd.1 = k
    · rw [if_pos hhd, dictGet_cons, dictGet_cons]
      dsimp only
      rw [if_neg (show ¬ k = k' from fun hc => hk hc.symm)]
      rw [if_neg (by rw [hhd]; exact fun hc => hk hc.symm)]
      exact ih
    · rw [if_neg hhd, dictGet_cons, dictGet_cons, ih]

/-- After replacing the value stored under an existing key `k`, looking `k`
up yields the new value. -/
theorem dictGet_map_set_hit (tl : List (String × String)) (k v : String)
    (hany : tl.any (fun p => p.1 = k)) :
    dictGet (tl.map (fun p => if p.1 = k then (k, v) else p)) k = some v := by
  induction tl with
  | nil => simp at hany
  | cons hd tl ih =>
    simp only [List.map_cons]
    by_cases hhd : hd.1 = k
    · rw [if_pos hhd, dictGet_cons]
      dsimp only
      rw [if_pos rfl]
    · rw [if_neg hhd, dictGet_cons, if_neg hhd]
      refine ih ?_
      simp only [List.any_cons, Bool.or_eq_true, decide_eq_true_eq] at hany
      rcases hany with h | h
      · exact absurd h hhd
      · exact h

/-- Lookup in a dict extended at the end with a fresh binding. -/
theorem dictGet_append_single (m : List (String × String)) (k v k' : String) :
    dictGet (m ++ [(k, v)]) k' =
      match dictGet m k' with
      | some w => some w
      | none => if k = k' then some v else none := by
  induction m with
  | nil =>
    rw [List.nil_append, dictGet_cons]
    rfl
  | cons hd tl ih =>
    simp only [List.cons_append]
    rw [dictGet_cons, dictGet_cons]
    by_cases h : hd.1 = k'
    · simp [h]
    · simp only [if_neg h]
      exact ih

/-- Lookup after a Python dict assignment. -/
theorem dictGet_dictSet (m : List (String × String)) (k v k' : String) :
    dictGet (dictSet m k v) k' = if k' = k then some v else dictGet m k' := by
  unfold dictSet
  by_cases hany : m.any (fun p => p.1 = k)
  · rw [if_pos hany]
    by_cases h : k' = k
    · subst h
      rw [if_pos rfl]
      exact dictGet_map_set_hit m k' v hany
    · rw [if_neg h]
      exact dictGet_map_set m k v k' h
  · rw [if_neg hany]
    rw [dictGet_append_single]
    have hnone : dictGet m k = none := by
      unfold dictGet
      rw [List.find?_eq_none.mpr ?_]
      · rfl
      · intro p hp
        simp only [decide_eq_true_eq]
        intro hc
        exact hany (List.any_eq_true.mpr ⟨p, hp, by simp [hc]⟩)
    by_cases h : k' = k
    · subst h
      rw [if_pos rfl, hnone, if_pos rfl]
    · rw [if_neg h]
      cases hg : dictGet m k' with
      | none => simp [show ¬ k = k' from fun hc => h hc.symm]
      | some w => simp

/-- A dict assignment never empties the dict. -/
theorem dictSet_ne_nil (m : List (String × String)) (k v : String) :
    dictSet m k v ≠ [] := by
  unfold dictSet
  split
  · intro h
    cases m with
    | nil => simp at *
    | cons hd tl => simp at h
  · intro h
    cases m <;> simp at h

/-- Lookup through the links fold. -/
theorem dictGet_linksFold (l : List Link) :
    ∀ m : List (String × String), ∀ k : String,
    (dictGet (l.foldl (fun m lk => dictSet m lk.rel lk.href) m) k).isSome
      ↔ ((dictGet m k).isSome ∨ ∃ lk ∈ l, lk.rel = k) := by
  induction l with
  | nil => intro m k; simp
  | cons hd tl ih =>
    intro m k
    simp only [List.foldl_cons]
    rw [ih (dictSet m hd.rel hd.href) k, dictGet_dictSet]
    by_cases h : k = hd.rel
    · constructor
      · intro _
        exact Or.inr ⟨hd, List.mem_cons_self _ _, h.symm⟩
      · intro _
        left
        simp [h]
    · rw [if_neg h]
      constructor
      · rintro (hm | ⟨lk, hlk, hrel⟩)
        · exact Or.inl hm
        · exact Or.inr ⟨lk, List.mem_cons_of_mem _ hlk, hrel⟩
      · rintro (hm | ⟨lk, hlk, hrel⟩)
        · exact Or.inl hm
        · rcases List.mem_cons.mp hlk with heq | hmem
          · subst heq
            exact absurd hrel.symm h
          · exact Or.inr ⟨lk, hmem, hrel⟩

/-- The links fold never returns an empty dict when fed a non-empty list. -/
theorem linksFold_ne_nil (l : List Link) :
    ∀ m : List (String × String), m ≠ [] ∨ l ≠ [] →
    l.foldl (fun m lk => dictSet m lk.rel lk.href) m ≠ [] := by
  induction l with
  | nil =>
    intro m h
    rcases h with h | h
    · exact h
    · exact absurd rfl h
  | cons hd tl ih =>
    intro m _
    simp only [List.foldl_cons]
    exact ih (dictSet m hd.rel hd.href) (Or.inl (dictSet_ne_nil m hd.rel hd.href))

/-- Key membership in the links map is rel membership in the links list. -/
theorem links_map_get_isSome (l : List Link) (k : String) :
    (dictGet (_links_map (some l)) k).isSome ↔ ∃ lk ∈ l, lk.rel = k := by
  cases l with
  | nil => simp [_links_map, dictGet]
  | cons hd tl =>
    show (dictGet (if (hd :: tl).isEmpty = true then []
      else (hd :: tl).foldl (fun m lk => dictSet m lk.rel lk.href) []) k).isSome
        ↔ ∃ lk ∈ hd :: tl, lk.rel = k
    rw [if_neg (by simp)]
    rw [dictGet_linksFold (hd :: tl) [] k]
    simp [dictGet]

/-- The links map is empty exactly for an empty links list. -/
theorem links_map_isEmpty (l : List Link) :
    (_links_map (some l)).isEmpty = l.isEmpty := by
  cases l with
  | nil => rfl
  | cons hd tl =>
    show (if (hd :: tl).isEmpty = true then []
      else (hd :: tl).foldl (fun m lk => dictSet m lk.rel lk.href) []).isEmpty
        = (hd :: tl).isEmpty
    rw [if_neg (by simp)]
    simp only [List.isEmpty_cons]
    cases hfold : (hd :: tl).foldl (fun m lk => dictSet m lk.rel lk.href) [] with
    | nil => exact absurd hfold (linksFold_ne_nil (hd :: tl) [] (Or.inr (by simp)))
    | cons p rest => rfl

/-- Counterexample to C6 as stated: a links list carrying both a `Self` and
a `Next` link is classified as in-progress (`Self` wins) — the client does
not raise. -/
theorem is_query_in_progress_both_rels_counterexample :
    _is_query_in_progress
        (some [⟨"Self", "https://cont/self"⟩, ⟨"Next", "https://cont/next"⟩])
      = Except.ok true ∧
    ∀ e : String,
      _is_query_in_progress
          (some [⟨"Self", "https://cont/self"⟩, ⟨"Next", "https://cont/next"⟩])
        ≠ Except.error e := by
  refine ⟨rfl, fun e h => ?_⟩
  rw [show _is_query_in_progress
      (some [⟨"Self", "https://cont/self"⟩, ⟨"Next", "https://cont/next"⟩])
    = Except.ok true from rfl] at h
  exact Except.noConfusion h

/-- **C6 (amended)**: A fetch-page body whose links list contains a `Self`
link is classified as in-progress — even when a `Next` link is also present
(`Self` takes priority; no protocol-violation raise).  A non-empty links
list containing neither `Self` nor `Next` (only unrecognized rels) raises. -/
theorem is_query_in_progress_classification (l : List Link) :
    ((∃ lk ∈ l, lk.rel = "Self") →
      _is_query_in_progress (some l) = Except.ok true) ∧
    (l ≠ [] → (∀ lk ∈ l, lk.rel ≠ "Self" ∧ lk.rel ≠ "Next") →
      _is_query_in_progress (some l) = Except.error
        "Invalid Log Search response: 'links' present but missing rel 'Self' or 'Next'") := by
  constructor
  · intro hself
    unfold _is_query_in_progress
    have hne : l ≠ [] := by
      rintro rfl
      obtain ⟨lk, hlk, _⟩ := hself
      exact absurd hlk (List.not_mem_nil lk)
    rw [if_neg (by
      rw [links_map_isEmpty]
      simpa using hne)]
    rw [if_pos ((links_map_get_isSome l "Self").mpr hself)]
  · intro hne hnone
    unfold _is_query_in_progress
    rw [if_neg (by
      rw [links_map_isEmpty]
      simpa using hne)]
    rw [if_neg (by
      rw [links_map_get_isSome l "Self"]
      rintro ⟨lk, hlk, hrel⟩
      exact (hnone lk hlk).1 hrel)]
    rw [if_neg (by
      rw [links_map_get_isSome l "Next"]
      rintro ⟨lk, hlk, hrel⟩
      exact (hnone lk hlk).2 hrel)]

/-- Witness for the amended C6: `Self`+`Next` yields in-progress; an
unrecognized-only links list raises. -/
theorem is_query_in_progress_classification_witness :
    _is_query_in_progress
        (some [⟨"Self", "https://cont/self"⟩, ⟨"Next", "https://cont/next"⟩])
      = Except.ok true ∧
    _is_query_in_progress (some [⟨"Last", "https://cont/last"⟩])
      = Except.error
        "Invalid Log Search response: 'links' present but missing rel 'Self' or 'Next'" :=
  ⟨(is_query_in_progress_classification
      [⟨"Self", "https://cont/self"⟩, ⟨"Next", "https://cont/next"⟩]).1
      ⟨⟨"Self", "https://cont/self"⟩, List.mem_cons_self _ _, rfl⟩,
   (is_query_in_progress_classification [⟨"Last", "https://cont/last"⟩]).2
      (by simp) (by
        intro lk hlk
        rw [List.mem_singleton] at hlk
        subst hlk
        exact ⟨by simp, by simp⟩)⟩

/-- `_poll_request_to_completion` (`api_client.py` lines 504-728) for a body
that is already complete: the response is returned unchanged (lines
529-548).  The sleeping/backoff poll loop for in-progress continuations
depends on wall-clock time and is outside the model: an in-progress
continuation is reported as an error marker (none of the theorems below
exercise that branch — they quantify over remotes serving completed
pages). -/
def pollToCompletion (b : Body) : Except String Body :=
  match _is_query_in_progress b.links with
  | Except.error e => Except.error e
  | Except.ok false => Except.ok b
  | Except.ok true => Except.error "poll-loop (wall-clock polling) outside model"

/-- The error raised at `api_client.py` lines 1096-1099. -/
def paginationNotAdvancingMsg : String :=
  "Pagination did not advance (Next URL repeated). This indicates an unexpected API response or client bug."

/-- The error raised at `api_client.py` lines 1074-1076. -/
def pageLimitMsg (max_pages : Nat) : String :=
  s!"Pagination exceeded safety limit (max_pages={max_pages})."

/-- The `while self._has_next_page(body)` loop of `fetch_logs`
(`api_client.py` lines 1060-1132).  `remaining` is `max_pages - page_num`
(natural subtraction), so the `page_num >= max_pages` guard of line 1067 is
exactly `remaining = 0`.  Errors carry the number of page fetches performed
so far, so the theorems can speak about how many fetches happened before a
failure. -/
def paginate (remote : String → Body) (max_pages : Nat) :
    Nat → Option String → Body → List Body → Nat →
    Except (String × Nat) (List Body × Nat)
  | remaining, last_next_url, body, pages, fetches =>
    if _has_next_page body.links then
      match remaining with
      | 0 => Except.error (pageLimitMsg max_pages, fetches)
      | remaining + 1 =>
        match dictGet (_links_map body.links) "Next" with
        | none => Except.error
            ("Invalid Log Search response: expected Next link but none found", fetches)
        | some next_url =>
          if last_next_url = some next_url then
            Except.error (paginationNotAdvancingMsg, fetches)
          else
            match pollToCompletion (remote next_url) with
            | Except.error e => Except.error (e, fetches + 1)
            | Except.ok page_body =>
              paginate remote max_pages remaining (some next_url) page_body
                (pages ++ [page_body]) (fetches + 1)
    else
      Except.ok (pages, fetches)

/-- `Rapid7ApiClient.fetch_logs` (`api_client.py` lines 900-1191), reduced
to its query/poll/paginate skeleton: submit the query (one page fetch), poll
page 1 to completion, then follow `Next` links.  The HTTP transport is the
`remote` function; the aggregated `{fetch_id, pages}` payload is modeled by
the list of completed page bodies together with the number of page fetches
performed. -/
def fetch_logs (remote : String → Body) (max_pages : Nat) (initial : Body) :
    Except (String × Nat) (List Body × Nat) :=
  match pollToCompletion initial with
  | Except.error e => Except.error (e, 1)
  | Except.ok body => paginate remote max_pages (max_pages - 1) none body [body] 1

/-- **C7**: During pagination in `fetch_logs`, if the `Next` URL obtained
from a completed page is identical to the previously-followed `Next` URL,
the client raises the pagination-not-advancing failure immediately, after
exactly two page fetches (the repeated URL is never fetched again);
pagination never silently loops on the repeated `Next` URL. -/
theorem fetch_logs_pagination_not_advancing (remote : String → Body)
    (max_pages : Nat) (initial b2 : Body) (u : String)
    (hmax : 3 ≤ max_pages)
    (h1 : pollToCompletion initial = Except.ok initial)
    (hu1 : dictGet (_links_map initial.links) "Next" = some u)
    (h2 : pollToCompletion (remote u) = Except.ok b2)
    (hu2 : dictGet (_links_map b2.links) "Next" = some u) :
    fetch_logs remote max_pages initial
      = Except.error (paginationNotAdvancingMsg, 2) := by
  unfold fetch_logs
  simp only [h1]
  have hnext1 : _has_next_page initial.links = true := by
    unfold _has_next_page
    rw [hu1]
    rfl
  have hnext2 : _has_next_page b2.links = true := by
    unfold _has_next_page
    rw [hu2]
    rfl
  obtain ⟨r1, hr1⟩ : ∃ r1, max_pages - 1 = r1 + 1 := ⟨max_pages - 2, by omega⟩
  obtain ⟨r2, hr2⟩ : ∃ r2, r1 = r2 + 1 := ⟨r1 - 1, by omega⟩
  rw [hr1, paginate.eq_def]
  simp only [if_pos hnext1, hu1]
  rw [if_neg (by simp)]
  simp only [h2]
  rw [hr2, paginate.eq_def]
  simp only [if_pos hnext2, hu2]
  simp

/-- A body carrying only a `Next` link pointing at `u`. -/
def bodyNextTo (u : String) : Body :=
  ⟨some [⟨"Next", u⟩], some []⟩

/-- Witness for C7: a remote that answers every URL with a completed page
whose `Next` link is again `"https://api/next-1"`; the run fails with the
pagination-not-advancing error after exactly two page fetches. -/
theorem fetch_logs_pagination_not_advancing_witness :
    3 ≤ 10000 ∧
    fetch_logs (fun _ => bodyNextTo "https://api/next-1") 10000
        (bodyNextTo "https://api/next-1")
      = Except.error (paginationNotAdvancingMsg, 2) :=
  ⟨by norm_num,
    fetch_logs_pagination_not_advancing (fun _ => bodyNextTo "https://api/next-1")
      10000 (bodyNextTo "https://api/next-1") (bodyNextTo "https://api/next-1")
      "https://api/next-1" (by norm_num) rfl rfl rfl rfl⟩

/-! ## Cache orchestrator (`LogIngestionService.run`, `service.py`)

The orchestrator is embedded with explicit Python function-scope semantics
for the two locals `run` reads before assigning them: `segments_used` is
assigned only at line 832 (cache-enabled path) and `final_dirs` only at
line 1181 (fetch loop), yet lines 818-819 (bypass path) and line 914 (hit
path) pass both to `_emit_run_summary`.  A Python local read before its
assignment raises `UnboundLocalError`; the embedding carries such locals as
`Option` values and raising as `PyErr.unboundLocal`.

Out of model: `_read_cached_segments` corruption handling (the disk model
carries per-segment parquet row counts, i.e. all modeled segments are
readable — the claims below only concern readable caches), output-path
strings and logging, and the miss/partial fetch loop of lines 943-1265
(no claim depends on it; reaching it is reported as
`RunOutcome.fetchLoopReached` carrying the decision already computed). -/

/-- Python runtime errors raised by the embedded `run` paths. -/
inductive PyErr where
  | valueError (msg : String)
  | unboundLocal (name : String)
deriving DecidableEq

/-- Reading a Python local: `none` models a local the function assigns
somewhere (making the name local to the function) but has not assigned yet
on the executed path — reading it raises `UnboundLocalError`. -/
def localGet {α : Type} (v : Option α) (name : String) : Except PyErr α :=
  match v with
  | some x => Except.ok x
  | none => Except.error (PyErr.unboundLocal name)

/-- One cache segment on disk for the configured log id: its directory
address `(start_ms, end_ms)` plus the parquet dataset row count that
`_read_cached_segments` reports for it. -/
structure DiskSegment where
  start_ms : Int
  end_ms : Int
  rows : Nat
deriving DecidableEq

/-- Segment order used by `list_segments` (`cache_index.py` line 130):
sorted by `(start_ms, end_ms, path)`; the path is determined by the range,
so the range is the key. -/
def segLe (a b : DiskSegment) : Prop :=
  rangeLe (a.start_ms, a.end_ms) (b.start_ms, b.end_ms)

instance : DecidableRel segLe := fun a b => by
  unfold segLe; exact inferInstance

/-- `list_segments` (`cache_index.py` lines 100-130): drop invalid ranges
(`end <= start`), sort by `(start_ms, end_ms, path)`.  (Malformed directory
names are skipped during the scan; the disk model only contains parsed
segments.) -/
def list_segments (disk : List DiskSegment) : List DiskSegment :=
  List.insertionSort segLe (disk.filter (fun s => s.start_ms < s.end_ms))

/-- `_read_cached_segments` (`service.py` lines 1357-1397) over readable
segments: total parquet row count plus the list of segment directories. -/
def _read_cached_segments (segments : List DiskSegment) : Nat × List DiskSegment :=
  (segments.foldl (fun acc s => acc + s.rows) 0, segments)

/-- The dict returned by `_compute_cache_decision`. -/
structure CacheDecision where
  decision : String
  missing_ranges : List RangeMs
  cached_ranges : List RangeMs
  segments_used : List DiskSegment
deriving DecidableEq

/-- `LogIngestionService._compute_cache_decision` (`service.py` lines
1277-1355): bypass forces a miss over the full window; otherwise overlap
filtering, clipping to the window, and `compute_missing_subranges` decide
hit/partial/miss. -/
def _compute_cache_decision (cfg : LogIngestionConfig)
    (disk : List DiskSegment) (requested_start_ms requested_end_ms : Int) :
    Except String CacheDecision :=
  if cfg.bypass_cache then
    Except.ok ⟨"miss", [(requested_start_ms, requested_end_ms)], [], []⟩
  else
    let all_segments := list_segments disk
    let segments_used := all_segments.filter
      (fun seg => seg.start_ms < requested_end_ms ∧ seg.end_ms > requested_start_ms)
    let cached_ranges := segments_used.map (fun s => (s.start_ms, s.end_ms))
    if segments_used.isEmpty then
      Except.ok ⟨"miss", [(requested_start_ms, requested_end_ms)], [], []⟩
    else
      let clipped_ranges := cached_ranges.filterMap (fun p =>
        let s2 := max p.1 requested_start_ms
        let e2 := min p.2 requested_end_ms
        if e2 > s2 then some (s2, e2) else none)
      match compute_missing_subranges requested_start_ms requested_end_ms
          clipped_ranges with
      | Except.error e => Except.error e
      | Except.ok missing_ranges =>
        Except.ok ⟨if missing_ranges.isEmpty then "hit" else "partial",
          missing_ranges, cached_ranges, segments_used⟩

/-- The result dict of `run`, restricted to the fields the claims under
verification read (the remaining fields are timing/observability). -/
structure RunResult where
  rows_processed : Nat
  batches_processed : Nat
  cache_hit : Bool
  cache_partial : Bool
  segments_used : Nat
deriving DecidableEq

/-- What `run` produced: a returned result dict, or the model boundary
marker for the miss/partial fetch loop of lines 943-1265 (which no claim
exercises; the marker carries the computed decision and missing ranges). -/
inductive RunOutcome where
  | completed (r : RunResult)
  | fetchLoopReached (decision : String) (missing_ranges : List RangeMs)
deriving DecidableEq

/-- The payload string returned by `api_client.fetch_logs`, modeled by the
shape `run` decodes it into: falsy/empty, CSV (row count of the parsed
dataframe), a Log Search JSON payload with a `pages` list, or a payload
that fails JSON decoding / lacks a `pages` list. -/
inductive FetchPayload where
  | empty
  | csv (rows : Nat)
  | pages (ps : List Page)
  | undecodable

/-- `(rows + max(1, batch_size) - 1) // max(1, batch_size)`
(`service.py` lines 647, 879). -/
def batchesFor (batch_size : Int) (rows : Nat) : Nat :=
  let b := max 1 batch_size
  ((rows + b.toNat - 1) / b.toNat)

/-- The empty-data early return of the bypass path
(`service.py` lines 611-621 and its copies). -/
def emptyRunResult : RunResult := ⟨0, 0, false, false, 0⟩

/-- `LogIngestionService.run` (`service.py` lines 542-1275) — the validated
window, the bypass path (lines 600-822) and the cache-enabled decision with
its hit branch (lines 824-917).  Returns the outcome (or raised error), the
number of `api_client.fetch_logs` calls performed, and the cache store
contents after the run. -/
def run_model (cfg : LogIngestionConfig)
    (write_part_bytes : Nat → Nat → Option Int)
    (disk : List DiskSegment) (remote : RangeMs → FetchPayload)
    (requested_start_ms requested_end_ms : Int) :
    Except PyErr RunOutcome × Nat × List DiskSegment :=
  if requested_end_ms ≤ requested_start_ms then
    (Except.error (PyErr.valueError "end_time must be after start_time"), 0, disk)
  else if cfg.bypass_cache then
    -- bypass path: fetch the full requested window, ignoring the cache
    match remote (requested_start_ms, requested_end_ms) with
    | FetchPayload.empty => (Except.ok (RunOutcome.completed emptyRunResult), 1, disk)
    | FetchPayload.csv rows =>
      if rows = 0 then (Except.ok (RunOutcome.completed emptyRunResult), 1, disk)
      else
        -- CSV rows are written under output_dir, not the cache store
        (Except.ok (RunOutcome.completed
          ⟨rows, batchesFor cfg.batch_size rows, false, false, 0⟩), 1, disk)
    | FetchPayload.undecodable =>
      (Except.ok (RunOutcome.completed emptyRunResult), 1, disk)
    | FetchPayload.pages ps =>
      let extracted_any_events := ps.any (fun p => ¬ (pageEvents p).isEmpty)
      if ¬ extracted_any_events then
        (Except.ok (RunOutcome.completed emptyRunResult), 1, disk)
      else
        let w := _write_events_streaming_to_cache_segment cfg write_part_bytes
          cfg.rapid7_log_key requested_start_ms requested_end_ms ps
        -- the streaming writer persists its parts under the cache segment dir
        let disk2 := if w.rows_processed = 0 then disk
          else disk ++ [⟨requested_start_ms, requested_end_ms, w.rows_processed⟩]
        if w.rows_processed = 0 ∨ w.dataset_dir = none then
          (Except.ok (RunOutcome.completed emptyRunResult), 1, disk2)
        else
          -- result dict built (lines 770-791), then `_emit_run_summary(...,
          -- cache_segments=list(segments_used), dataset_dirs=final_dirs)`
          -- reads two locals never assigned on this path (lines 818-819)
          let segments_used_local : Option (List DiskSegment) := none
          let final_dirs_local : Option (List DiskSegment) := none
          match localGet segments_used_local "segments_used" with
          | Except.error e => (Except.error e, 1, disk2)
          | Except.ok _ =>
            match localGet final_dirs_local "final_dirs" with
            | Except.error e => (Except.error e, 1, disk2)
            | Except.ok _ =>
              (Except.ok (RunOutcome.completed
                ⟨w.rows_processed, w.parts_written, false, false, 1⟩), 1, disk2)
  else
    -- cache-enabled path
    match _compute_cache_decision cfg disk requested_start_ms requested_end_ms with
    | Except.error e => (Except.error (PyErr.valueError e), 0, disk)
    | Except.ok dec =>
      if dec.decision = "hit" then
        let read := _read_cached_segments dec.segments_used
        let total_rows := read.1
        let segment_dirs := read.2
        let result : RunResult :=
          ⟨total_rows, batchesFor cfg.batch_size total_rows, true, false,
            segment_dirs.length⟩
        -- `_emit_run_summary(..., cache_segments=list(segments_used),
        --  dataset_dirs=final_dirs)` at lines 907-915: `segments_used` is
        -- assigned (line 832) but `final_dirs` is not assigned before
        -- line 1181, which this path never reaches
        let segments_used_local : Option (List DiskSegment) := some dec.segments_used
        let final_dirs_local : Option (List DiskSegment) := none
        match localGet segments_used_local "segments_used" with
        | Except.error e => (Except.error e, 0, disk)
        | Except.ok _ =>
          match localGet final_dirs_local "final_dirs" with
          | Except.error e => (Except.error e, 0, disk)
          | Except.ok _ => (Except.ok (RunOutcome.completed result), 0, disk)
      else
        let missing_ranges := if dec.missing_ranges.isEmpty then
          [(requested_start_ms, requested_end_ms)] else dec.missing_ranges
        (Except.ok (RunOutcome.fetchLoopReached dec.decision missing_ranges), 0, disk)

/-- A page list whose concatenated decoded events are non-empty has a page
with non-empty decoded events. -/
theorem any_page_of_consumed_pos (ps : List Page)
    (h : 0 < (consumedEvents ps).length) :
    ps.any (fun p => ¬ (pageEvents p).isEmpty) = true := by
  induction ps with
  | nil => simp [consumedEvents] at h
  | cons p tl ih =>
    simp only [consumedEvents, List.map_cons, List.flatten_cons,
      List.length_append] at h
    simp only [List.any_cons, Bool.or_eq_true]
    by_cases hp : (pageEvents p).isEmpty
    · right
      refine ih ?_
      have hlen : (pageEvents p).length = 0 :=
        List.length_eq_zero.mpr (List.isEmpty_iff.mp hp)
      simp only [consumedEvents]
      omega
    · left
      simp [hp]

/-- A positive accepted-row count forces a page with decodable events
(the writer's `extracted_any_events` pre-check cannot have failed). -/
theorem rows_pos_extracted (cfg : LogIngestionConfig)
    (wpb : Nat → Nat → Option Int) (log_id : String) (reqS reqE : Int)
    (ps : List Page)
    (h : 0 < (_write_events_streaming_to_cache_segment cfg wpb log_id reqS
        reqE ps).rows_processed) :
    ps.any (fun p => ¬ (pageEvents p).isEmpty) = true := by
  obtain ⟨_, _, p3, _, _, _⟩ := write_result_proj cfg wpb log_id reqS reqE ps
  obtain ⟨c1, c2, c3, c4⟩ := finalWriterState_counts cfg wpb ps
  rw [p3] at h
  exact any_page_of_consumed_pos ps (by omega)

/-- **C2 (code behavior at the bug)**: whenever the cache decision is a hit
(the cache fully covers the requested window), `run` performs zero remote
fetches and then raises `UnboundLocalError` on `final_dirs` — the local that
is only assigned in the fetch loop (line 1181) but is passed to
`_emit_run_summary` at line 914 — instead of returning the cache-hit result.
The repository's own test `test_cache_hit_no_api_call` expects a normal
return with `cache_hit=True`. -/
theorem run_cache_hit_raises (cfg : LogIngestionConfig)
    (wpb : Nat → Nat → Option Int) (disk : List DiskSegment)
    (remote : RangeMs → FetchPayload) (reqS reqE : Int)
    (hlt : reqS < reqE) (hbp : cfg.bypass_cache = false)
    (d : CacheDecision)
    (hdec : _compute_cache_decision cfg disk reqS reqE = Except.ok d)
    (hhit : d.decision = "hit") :
    run_model cfg wpb disk remote reqS reqE
      = (Except.error (PyErr.unboundLocal "final_dirs"), 0, disk) := by
  unfold run_model
  rw [if_neg (by omega)]
  rw [if_neg (by rw [hbp]; exact Bool.false_ne_true)]
  simp only [hdec]
  rw [if_pos hhit]
  simp [localGet]

/-- Witness configuration for C2/C3 (cache-enabled run). -/
def cfgHitWitness : LogIngestionConfig :=
  ⟨"test-log-123", "cache", false, 1000, 1000, true, 10000⟩

/-- Witness for C2: cached segment `[0, 10000)` with 5 rows fully covers the
requested window `[1000, 5000)` (the input of the repository's test
`test_cache_hit_no_api_call`); the decision is a hit and `run` raises with
zero fetches instead of returning `rows_processed = 5, cache_hit = True`. -/
theorem run_cache_hit_raises_witness :
    (1000 : Int) < 5000 ∧
    cfgHitWitness.bypass_cache = false ∧
    _compute_cache_decision cfgHitWitness [⟨0, 10000, 5⟩] 1000 5000
      = Except.ok ⟨"hit", [], [(0, 10000)], [⟨0, 10000, 5⟩]⟩ ∧
    run_model cfgHitWitness (fun _ _ => none) [⟨0, 10000, 5⟩]
        (fun _ => FetchPayload.empty) 1000 5000
      = (Except.error (PyErr.unboundLocal "final_dirs"), 0, [⟨0, 10000, 5⟩]) :=
  ⟨by norm_num, rfl, rfl,
    run_cache_hit_raises cfgHitWitness (fun _ _ => none) [⟨0, 10000, 5⟩]
      (fun _ => FetchPayload.empty) 1000 5000 (by norm_num) rfl
      ⟨"hit", [], [(0, 10000)], [⟨0, 10000, 5⟩]⟩ rfl rfl⟩

/-- **C3 (code behavior at the bug)**: a bypass-mode run that fetches at
least one event does behave as a miss (a single remote fetch of the whole
window, ignoring existing segments), but it persists the fetched events
into the cache store — the segment directory
`{cache_root}/{log_id}/from={start}/to={end}` appears under the cache root —
and then raises `UnboundLocalError` on `segments_used` (line 818) instead
of returning.  The claim's "cache root unchanged" is false, and the
repository's own test `test_bypass_cache_ignores_existing_cache` expects a
normal return with `rows_processed == 1`. -/
theorem run_bypass_persists_and_raises (cfg : LogIngestionConfig)
    (wpb : Nat → Nat → Option Int) (disk : List DiskSegment)
    (remote : RangeMs → FetchPayload) (reqS reqE : Int) (ps : List Page)
    (hlt : reqS < reqE) (hbp : cfg.bypass_cache = true)
    (hremote : remote (reqS, reqE) = FetchPayload.pages ps)
    (hrows : 0 < (_write_events_streaming_to_cache_segment cfg wpb
        cfg.rapid7_log_key reqS reqE ps).rows_processed) :
    run_model cfg wpb disk remote reqS reqE
      = (Except.error (PyErr.unboundLocal "segments_used"), 1,
          disk ++ [⟨reqS, reqE, (_write_events_streaming_to_cache_segment cfg
            wpb cfg.rapid7_log_key reqS reqE ps).rows_processed⟩]) ∧
    (run_model cfg wpb disk remote reqS reqE).2.2 ≠ disk := by
  have hext := rows_pos_extracted cfg wpb cfg.rapid7_log_key reqS reqE ps hrows
  have hdir : (_write_events_streaming_to_cache_segment cfg wpb
      cfg.rapid7_log_key reqS reqE ps).dataset_dir
        = some (segment_dir_for_range cfg.cache_dir cfg.rapid7_log_key reqS reqE) := by
    obtain ⟨_, _, p3, _, _, p6⟩ :=
      write_result_proj cfg wpb cfg.rapid7_log_key reqS reqE ps
    rw [p6, if_neg (by rw [← p3]; omega)]
  have hmain : run_model cfg wpb disk remote reqS reqE
      = (Except.error (PyErr.unboundLocal "segments_used"), 1,
          disk ++ [⟨reqS, reqE, (_write_events_streaming_to_cache_segment cfg
            wpb cfg.rapid7_log_key reqS reqE ps).rows_processed⟩]) := by
    have hrneg : ¬((_write_events_streaming_to_cache_segment cfg wpb
        cfg.rapid7_log_key reqS reqE ps).rows_processed = 0) := by omega
    have hor : ¬((_write_events_streaming_to_cache_segment cfg wpb
          cfg.rapid7_log_key reqS reqE ps).rows_processed = 0 ∨
        (_write_events_streaming_to_cache_segment cfg wpb
          cfg.rapid7_log_key reqS reqE ps).dataset_dir = none) := by
      push_neg
      exact ⟨hrneg, by rw [hdir]; simp⟩
    unfold run_model
    rw [if_neg (by omega)]
    rw [if_pos hbp]
    simp only [hremote, hext]
    rw [if_neg (by simp)]
    simp only [if_neg hrneg, if_neg hor]
    simp [localGet]
  refine ⟨hmain, ?_⟩
  rw [hmain]
  intro hc
  have := congrArg List.length hc
  simp at this

/-- Witness page list for C3: one page with one event (the input of the
repository's test `test_bypass_cache_ignores_existing_cache`). -/
def pagesBypassWitness : List Page :=
  [⟨some [⟨none, none, some "1", some 1000⟩]⟩]

/-- Witness configuration for C3 (bypass-mode run). -/
def cfgBypassWitness : LogIngestionConfig :=
  ⟨"test-log-bypass", "cache", true, 1000, 1000, true, 10000⟩

/-- Witness for C3: bypass-mode run over `[1000, 5000)` against a cache that
already holds `[0, 100000)`; the remote returns one event, the run performs
one fetch, persists the segment `from=1000/to=5000` under the cache root
(the directory set changes), and raises on `segments_used`. -/
theorem run_bypass_persists_and_raises_witness :
    (1000 : Int) < 5000 ∧
    cfgBypassWitness.bypass_cache = true ∧
    (run_model cfgBypassWitness (fun _ _ => none) [⟨0, 100000, 5⟩]
        (fun _ => FetchPayload.pages pagesBypassWitness) 1000 5000
      = (Except.error (PyErr.unboundLocal "segments_used"), 1,
          [⟨0, 100000, 5⟩] ++ [⟨1000, 5000,
            (_write_events_streaming_to_cache_segment cfgBypassWitness
              (fun _ _ => none) cfgBypassWitness.rapid7_log_key 1000 5000
              pagesBypassWitness).rows_processed⟩]) ∧
    (run_model cfgBypassWitness (fun _ _ => none) [⟨0, 100000, 5⟩]
        (fun _ => FetchPayload.pages pagesBypassWitness) 1000 5000).2.2
      ≠ [⟨0, 100000, 5⟩]) :=
  ⟨by norm_num, rfl,
    run_bypass_persists_and_raises cfgBypassWitness (fun _ _ => none)
      [⟨0, 100000, 5⟩] (fun _ => FetchPayload.pages pagesBypassWitness)
      1000 5000 pagesBypassWitness (by norm_num) rfl rfl (by decide)⟩

example :
    (_write_events_streaming_to_cache_segment cfgBypassWitness
      (fun _ _ => none) cfgBypassWitness.rapid7_log_key 1000 5000
      pagesBypassWitness).rows_processed = 1 := rfl

end LogAnalysis
